/-
Verification of the OptimEngine operations-intelligence engine.

This file gives a shallow embedding, in Lean 4, of the parts of the
engine that the specification's claims are about:

  * the FJSP horizon computation of `src/solver/engine.py`,
  * the schedule validator of `src/solver/validator.py`,
  * the distance-matrix construction of `src/routing/engine.py`,
  * the solver-status dispatch of `src/packing/engine.py`,
  * the value coercions, scenario generation, robust-mode selection and
    risk statistics of the Layer-2 engines (`src/robust/engine.py`,
    `src/stochastic/engine.py`, `src/sensitivity/engine.py`,
    `src/pareto/engine.py`),
  * a store-based model of the deep-copy discipline of the scenario loops.

Python numbers are embedded as `ℚ` (counts and machine-time units as `ℕ`
or `ℤ` where the pydantic models constrain them to integers); Python's
`round` (banker's rounding) is embedded exactly as `pyRoundInt`.

The file is organised as definitions first, theorems second.
-/
import Mathlib

namespace OptimEngine

/-! # Definitions -/

/-! ## Python rounding

`pyRoundInt` embeds Python's built-in `round(x)` (round-half-to-even);
`pyRound2` embeds `round(x, 2)`. -/

/-- Python `round(x)`: nearest integer, ties to the even integer. -/
def pyRoundInt (x : ℚ) : ℤ :=
  let f := ⌊x⌋
  let r := x - f
  if r < 1/2 then f
  else if 1/2 < r then f + 1
  else if 2 ∣ f then f else f + 1

/-- Python `round(x, 2)`: round to two decimal places, ties to even. -/
def pyRound2 (x : ℚ) : ℚ :=
  (pyRoundInt (x * 100) : ℚ) / 100

/-! ## FJSP scheduling data model (`src/solver/models.py`)

All times are nonnegative integers (pydantic `ge=0` / `gt=0`). -/

structure TimeWindow where
  earliest_start : ℕ
  latest_end : Option ℕ
deriving Repr, DecidableEq

structure SchedTask where
  task_id : String
  duration : ℕ
  eligible_machines : List String
  setup_time : ℕ
deriving Repr, DecidableEq

structure SchedJob where
  job_id : String
  tasks : List SchedTask
  priority : ℕ
  due_date : Option ℕ
  time_window : Option TimeWindow
deriving Repr, DecidableEq

structure SchedMachine where
  machine_id : String
  availability_start : ℕ
  availability_end : Option ℕ
deriving Repr, DecidableEq

/-! ## C8 — FJSP model horizon (`src/solver/engine.py`, `solve_schedule`) -/

/-- `horizon = sum(t.duration + t.setup_time for j in jobs for t in j.tasks)`
(the first assignment in the horizon block of `solve_schedule`). -/
def baseHorizon (jobs : List SchedJob) : ℕ :=
  (jobs.map (fun j => (j.tasks.map (fun t => t.duration + t.setup_time)).sum)).sum

/-- The per-machine horizon update of `solve_schedule`:
`if m.availability_end is not None: horizon = max(horizon, m.availability_end)`. -/
def machineHorizonStep (h : ℕ) (m : SchedMachine) : ℕ :=
  match m.availability_end with
  | some e => max h e
  | none => h

/-- The per-job horizon update of `solve_schedule`: raise by the job
time window's `latest_end` (when both are set), then by `due_date * 2`
(when set). -/
def jobHorizonStep (h : ℕ) (j : SchedJob) : ℕ :=
  let h' := match j.time_window with
    | some tw =>
      match tw.latest_end with
      | some le => max h le
      | none => h
    | none => h
  match j.due_date with
  | some d => max h' (d * 2)
  | none => h'

/-- The horizon computation of `solve_schedule` (`src/solver/engine.py`
lines 61–74): start from the total duration+setup sum, then raise by each
machine `availability_end`, each job time-window `latest_end`, and
`due_date * 2` for each job with a due date, in program order. -/
def computeHorizon (jobs : List SchedJob) (machines : List SchedMachine) : ℕ :=
  jobs.foldl jobHorizonStep (machines.foldl machineHorizonStep (baseHorizon jobs))

/-- All the bounds the horizon must cover, per the specification: every
machine's `availability_end`, every job time window's `latest_end`, and
twice the due date of every job that has one. -/
def horizonBounds (jobs : List SchedJob) (machines : List SchedMachine) : List ℕ :=
  machines.filterMap (·.availability_end)
    ++ jobs.filterMap (fun j => j.time_window.bind (·.latest_end))
    ++ (jobs.filterMap (·.due_date)).map (· * 2)

/-- Maximum of a list of naturals (0 when empty). -/
def maxList (l : List ℕ) : ℕ := l.foldl max 0

/-! ## C10 — packing solver status dispatch (`src/packing/engine.py`) -/

/-- The statuses the CP-SAT `solve` call can report
(`cp_model.UNKNOWN / MODEL_INVALID / FEASIBLE / INFEASIBLE / OPTIMAL`). -/
inductive CpStatus
  | unknown
  | modelInvalid
  | feasible
  | infeasible
  | optimal
deriving Repr, DecidableEq

/-- The packing status enum of `src/packing/models.py` (`PackingStatus`);
it has no `infeasible` member. -/
inductive PackingStatus
  | optimal
  | feasible
  | no_solution
  | timeout
  | error
deriving Repr, DecidableEq

/-- The wire value of each `PackingStatus` member. -/
def PackingStatus.value : PackingStatus → String
  | .optimal => "optimal"
  | .feasible => "feasible"
  | .no_solution => "no_solution"
  | .timeout => "timeout"
  | .error => "error"

/-- The post-solve status dispatch of `solve_packing`
(`src/packing/engine.py` lines 188, 287–296): a CP solution maps to
`optimal`/`feasible`, proven unsatisfiability maps to `no_solution`, and
every other solver outcome maps to `timeout`. -/
def packingStatusOfCp : CpStatus → PackingStatus
  | .optimal => .optimal
  | .feasible => .feasible
  | .infeasible => .no_solution
  | _ => .timeout

/-- The status of a whole `solve_packing` call: the early guards (no
items / no bins) and the exception handler report `error`; otherwise the
CP status is dispatched by `packingStatusOfCp`. -/
def solvePackingStatus (noItems noBins raised : Bool) (cp : CpStatus) : PackingStatus :=
  if noItems then .error
  else if noBins then .error
  else if raised then .error
  else packingStatusOfCp cp

/-! ## C4 — scenario value coercions

A Python numeric scalar is tagged with its concrete type because the
engines branch on `isinstance(..., int)`. -/

inductive PyNum
  | int (n : ℤ)
  | float (q : ℚ)
deriving Repr, DecidableEq

def PyNum.toQ : PyNum → ℚ
  | .int n => n
  | .float q => q

/-- Perturbation mode of `src/sensitivity/models.py`. -/
inductive PerturbationMode
  | percentage
  | absolute
deriving Repr, DecidableEq

/-- The pre-coercion perturbed value inside `_apply_perturbation`
(`src/sensitivity/engine.py` lines 110–113). -/
def perturbedValue (base : PyNum) (pert : ℚ) (mode : PerturbationMode) : ℚ :=
  match mode with
  | .percentage => base.toQ * (1 + pert / 100)
  | .absolute => base.toQ + pert

/-- `_apply_perturbation` of `src/sensitivity/engine.py` (lines 103–121):
perturb, then coerce with `max(0, int(round(v)))` for `int` bases and
`max(0.0, round(v, 2))` otherwise. -/
def applyPerturbation (base : PyNum) (pert : ℚ) (mode : PerturbationMode) : PyNum :=
  let newVal := perturbedValue base pert mode
  match base with
  | .int _ => .int (max 0 (pyRoundInt newVal))
  | .float _ => .float (max 0 (pyRound2 newVal))

/-- The type-preserving coercion at the end of `_sample_value`
(`src/stochastic/engine.py` lines 109–115), applied to the value sampled
from the distribution. -/
def sampleCoerce (nominal : PyNum) (val : ℚ) : PyNum :=
  match nominal with
  | .int _ => .int (max 0 (pyRoundInt val))
  | .float _ => .float (max 0 (pyRound2 val))

/-- The coercion of a randomly drawn robust scenario value
(`src/robust/engine.py`, `_generate_scenarios` lines 121–131):
`int(round(val))` for an integer nominal, `round(val, 2)` otherwise —
with no floor of 0. -/
def robustScenarioCoerce (nominal : PyNum) (val : ℚ) : PyNum :=
  match nominal with
  | .int _ => .int (pyRoundInt val)
  | .float _ => .float (pyRound2 val)

/-- The re-coercion in the robust solve loop (`optimize_robust`
lines 203–209) applied just before `_set_path`: `int(round(val))` when
the original scalar is an `int`, otherwise the value unchanged. -/
def robustWriteCoerce (orig : PyNum) (val : ℚ) : ℚ :=
  match orig with
  | .int _ => (pyRoundInt val : ℚ)
  | .float _ => val

/-- The value the robust engine writes for a random scenario draw `v` on
a path whose original (and nominal) scalar is `orig`: the scenario
coercion of `_generate_scenarios` followed by the write coercion of the
solve loop. -/
def robustWrittenValue (orig : PyNum) (v : ℚ) : ℚ :=
  robustWriteCoerce orig (robustScenarioCoerce orig v).toQ

/-- Modelled from the claim's words: the written value is
`max(0, round(v))` for integer originals and `max(0, round(v, 2))`
otherwise. -/
def claimedWrittenValue (orig : PyNum) (v : ℚ) : ℚ :=
  match orig with
  | .int _ => max 0 (pyRoundInt v : ℚ)
  | .float _ => max 0 (pyRound2 v)

/-! ## C5 — percentile and CVaR (`src/stochastic/engine.py`) -/

/-- `_percentile` of `src/stochastic/engine.py` (lines 167–175): linear
interpolation at rank `(n-1)·pct/100` on an ascending list.  The local
`percentile` helper of `optimize_robust` (`src/robust/engine.py` lines
265–273) has the identical body, so this definition embeds both. -/
def percentileQ (sortedData : List ℚ) (pct : ℚ) : ℚ :=
  if sortedData.isEmpty then 0
  else
    let k : ℚ := ((sortedData.length : ℚ) - 1) * (pct / 100)
    let f : ℤ := ⌊k⌋
    let c : ℤ := min ⌈k⌉ ((sortedData.length : ℤ) - 1)
    if f = c then sortedData.getD f.toNat 0
    else sortedData.getD f.toNat 0 * ((c : ℚ) - k) + sortedData.getD c.toNat 0 * (k - (f : ℚ))

/-- `_cvar` of `src/stochastic/engine.py` (lines 178–187): the mean of
the worst (largest) `max(1, ceil(n·(1 − conf/100)))` outcomes. -/
def cvarQ (sortedData : List ℚ) (confidencePct : ℚ) : ℚ :=
  if sortedData.isEmpty then 0
  else
    let tailSize : ℕ := max 1 (⌈(sortedData.length : ℚ) * (1 - confidencePct / 100)⌉).toNat
    let tail := sortedData.drop (sortedData.length - tailSize)
    tail.sum / (tail.length : ℚ)

/-- The interpolation kernel of `_percentile`, as a function of the
fractional rank `k` (so that `percentileQ l pct = interpAt l ((n-1)·pct/100)`
for nonempty `l`). -/
def interpAt (l : List ℚ) (k : ℚ) : ℚ :=
  let f : ℤ := ⌊k⌋
  let c : ℤ := min ⌈k⌉ ((l.length : ℤ) - 1)
  if f = c then l.getD f.toNat 0
  else l.getD f.toNat 0 * ((c : ℚ) - k) + l.getD c.toNat 0 * (k - (f : ℚ))

/-! ## C1 — robust-mode selection and price of robustness
(`src/robust/engine.py`, `optimize_robust` steps 4–6, lines 257–328) -/

/-- `RobustMode` of `src/robust/models.py`. -/
inductive RobustMode
  | worst_case
  | percentile_90
  | percentile_95
  | regret_minimization
deriving Repr, DecidableEq

/-- A `ScenarioResult` of `src/robust/models.py`, restricted to the two
fields the selection and pricing logic reads. -/
structure ScenResult where
  objective_value : ℚ
  feasible : Bool
deriving Repr, DecidableEq, Inhabited

/-- `feasible_objectives` as collected by the solve loop of
`optimize_robust`: objective values of feasible scenarios in scenario
order (scenario 0 is the nominal one). -/
def feasibleObjectives (results : List ScenResult) : List ℚ :=
  (results.filter (·.feasible)).map (·.objective_value)

/-- Python's `min(xs, key=lambda x: abs(x - m))`: the first element with
the minimal key (used by `RobustMode.REGRET_MINIMIZATION`); `optimize_robust`
only calls it on the nonempty `feasible_objectives`. -/
def pyMinByAbsDist (m : ℚ) : List ℚ → ℚ
  | [] => 0
  | x :: xs => xs.foldl (fun best y => if |y - m| < |best - m| then y else best) x

/-- The target objective per mode (`optimize_robust` lines 283–300):
the worst feasible objective, an interpolated percentile of the sorted
feasible objectives, or the feasible objective closest to their mean. -/
def robustTargetObj (mode : RobustMode) (sortedF feasObjs : List ℚ) (meanObj : ℚ) : ℚ :=
  match mode with
  | .worst_case => sortedF.getD (sortedF.length - 1) 0
  | .percentile_90 => percentileQ sortedF 90
  | .percentile_95 => percentileQ sortedF 95
  | .regret_minimization => pyMinByAbsDist meanObj feasObjs

/-- The matching loop of `optimize_robust` (lines 302–311): the first
feasible scenario whose objective is within `0.01` of the target;
`results[0]` (the nominal scenario) when none matches. -/
def robustScenario (results : List ScenResult) (target : ℚ) : ScenResult :=
  match results.find? (fun r => r.feasible && decide (|r.objective_value - target| < 1/100)) with
  | some r => r
  | none => results.headI

/-- The analysis phase of `optimize_robust` (steps 4–6) reduced to the
reported `price_of_robustness_pct`: `nominal_obj` is `results[0]`'s
objective when that scenario is feasible (`None` otherwise), and the
price is `round((robust - nominal) / nominal * 100, 2)` when
`nominal_obj and nominal_obj > 0` is truthy, else `0`. -/
def priceOfRobustness (results : List ScenResult) (mode : RobustMode) : ℚ :=
  let feasObjs := feasibleObjectives results
  let sortedF := feasObjs.mergeSort
  let meanObj := feasObjs.sum / (feasObjs.length : ℚ)
  let target := robustTargetObj mode sortedF feasObjs meanObj
  let robust := robustScenario results target
  if (results.headI).feasible && decide (0 < (results.headI).objective_value) then
    pyRound2 ((robust.objective_value - (results.headI).objective_value)
      / (results.headI).objective_value * 100)
  else 0

/-! ## C6 — Pareto dominance filtering (`src/pareto/engine.py`) -/

/-- A `ParetoPoint` of `src/pareto/models.py`, restricted to the fields
the dominance filter reads.  `objectives` is a Python dict
(objective name → displayed value); it is embedded as an association
list, whose keys are distinct for every engine-built point. -/
structure ParetoPoint where
  point_id : ℕ
  objectives : List (String × ℚ)
  feasible : Bool
deriving Repr, DecidableEq, Inhabited

/-- Python `d[key]` on an objectives dict (`point_b[key]` inside
`_is_dominated`).  Engine-built points all carry the same key set, so
the `0` default of this embedding is never read. -/
def objLookup (d : List (String × ℚ)) (key : String) : ℚ :=
  ((d.find? (fun kv => kv.1 == key)).map (·.2)).getD 0

/-- One iteration of the `for key in point_a` loop of `_is_dominated`
(`src/pareto/engine.py` lines 166–188), updating the pair
`(at_least_as_good, strictly_better)`. -/
def dominanceStep (b : List (String × ℚ)) (minimizeKeys : List String)
    (st : Bool × Bool) (kv : String × ℚ) : Bool × Bool :=
  let aVal := kv.2
  let bVal := objLookup b kv.1
  if minimizeKeys.contains kv.1 then
    (st.1 && !(decide (aVal < bVal)), st.2 || decide (bVal < aVal))
  else
    (st.1 && !(decide (bVal < aVal)), st.2 || decide (aVal < bVal))

/-- `_is_dominated(point_a, point_b, minimize_keys)`: `point_b` is at
least as good on every key of `point_a` and strictly better on at least
one. -/
def isDominated (a b : List (String × ℚ)) (minimizeKeys : List String) : Bool :=
  let st := a.foldl (dominanceStep b minimizeKeys) (true, false)
  st.1 && st.2

/-- `_filter_pareto_frontier` (`src/pareto/engine.py` lines 191–209):
keep every feasible point not dominated by a feasible point at a
different index. -/
def filterParetoFrontier (points : List ParetoPoint) (minimizeKeys : List String) :
    List ParetoPoint :=
  (points.enum.filter (fun ip =>
      ip.2.feasible &&
      !(points.enum.any (fun jq =>
          (jq.1 != ip.1) && jq.2.feasible
            && isDominated ip.2.objectives jq.2.objectives minimizeKeys)))).map (·.2)

/-- The frontier as computed by `optimize_pareto` (line 338):
`_filter_pareto_frontier` applied to the feasible generated points. -/
def engineFrontier (allPoints : List ParetoPoint) (minimizeKeys : List String) :
    List ParetoPoint :=
  filterParetoFrontier (allPoints.filter (·.feasible)) minimizeKeys

/-- Concrete generated points for the C6 witness. -/
def paretoWitnessPoints : List ParetoPoint :=
  [⟨0, [("minimize_makespan", 5)], true⟩, ⟨1, [("minimize_makespan", 7)], true⟩]

/-! ## C2 — routing distance matrix (`src/routing/engine.py`,
`_build_distance_matrix`, lines 27–73) -/

/-- A `Location` of `src/routing/models.py`, restricted to the fields
`_build_distance_matrix` reads; GPS coordinates as exact rationals. -/
structure RLocation where
  location_id : String
  latitude : Option ℚ
  longitude : Option ℚ
deriving Repr, DecidableEq

/-- A `DistanceEntry` of `src/routing/models.py` (`distance ≥ 0`,
optional `travel_time ≥ 0`). -/
structure RDistanceEntry where
  from_id : String
  to_id : String
  distance : ℤ
  travel_time : Option ℤ
deriving Repr, DecidableEq

/-- The `loc_index` dict: each location id to its list index (ids are
validated unique, so the first matching index). -/
def locIndex (locs : List RLocation) (lid : String) : Option ℕ :=
  locs.findIdx? (fun l => l.location_id == lid)

/-- The `custom` dict of `_build_distance_matrix` (lines 36–40): entries
whose endpoints both resolve, keyed by the index pair.  A later entry
for the same pair overwrites an earlier one, which prepending models for
lookup purposes. -/
def customEntries (locs : List RLocation) (entries : List RDistanceEntry) :
    List ((ℕ × ℕ) × (ℤ × Option ℤ)) :=
  entries.foldl
    (fun acc e =>
      match locIndex locs e.from_id, locIndex locs e.to_id with
      | some fi, some ti => ((fi, ti), (e.distance, e.travel_time)) :: acc
      | _, _ => acc) []

/-- `(i, j) in custom` / `custom[(i, j)]`. -/
def customLookup (custom : List ((ℕ × ℕ) × (ℤ × Option ℤ))) (ij : ℕ × ℕ) :
    Option (ℤ × Option ℤ) :=
  (custom.find? (fun kv => kv.1 == ij)).map (·.2)

/-- The Haversine fallback for one ordered pair, defined when both
endpoints have GPS coordinates.  The trigonometric `_haversine` itself
(floats, `sin`, `atan2`, Earth radius 6 371 000 m) is not exactly
embeddable, so the construction is parameterised by `hav`. -/
def pairHaversine (hav : ℚ → ℚ → ℚ → ℚ → ℤ) (li lj : RLocation) : Option ℤ :=
  match li.latitude, li.longitude, lj.latitude, lj.longitude with
  | some la1, some lo1, some la2, some lo2 => some (hav la1 lo1 la2 lo2)
  | _, _, _, _ => none

/-- One `(dist[i][j], travel_time[i][j])` cell of
`_build_distance_matrix` for the two program branches: when
`request.distance_matrix` is truthy (present and nonempty), use the
custom entry for the pair (travel time defaulting to distance), else
Haversine when both endpoints have GPS, else zero; when it is falsy,
use Haversine for every pair only when **all** locations have GPS
(`has_coords`), else leave every entry zero. -/
def buildMatrixEntry (hav : ℚ → ℚ → ℚ → ℚ → ℤ) (locs : List RLocation)
    (dmatrix : Option (List RDistanceEntry)) (i j : ℕ) : ℤ × ℤ :=
  if i = j then (0, 0)
  else
    match locs.get? i, locs.get? j with
    | some li, some lj =>
      if (dmatrix.getD []).isEmpty then
        if locs.all (fun l => l.latitude.isSome && l.longitude.isSome) then
          match pairHaversine hav li lj with
          | some d => (d, d)
          | none => (0, 0)
        else (0, 0)
      else
        match customLookup (customEntries locs (dmatrix.getD [])) (i, j) with
        | some (d, t) => (d, t.getD d)
        | none =>
          match pairHaversine hav li lj with
          | some d => (d, d)
          | none => (0, 0)
    | _, _ => (0, 0)

/-- Modelled from the claim's words: for every ordered pair of distinct
locations, an explicit matrix entry is used if one exists (travel time
defaulting to distance); otherwise Haversine whenever both endpoints
have GPS; otherwise zero — independently of whether the other locations
have GPS. -/
def claimedMatrixEntry (hav : ℚ → ℚ → ℚ → ℚ → ℤ) (locs : List RLocation)
    (dmatrix : Option (List RDistanceEntry)) (i j : ℕ) : ℤ × ℤ :=
  if i = j then (0, 0)
  else
    match locs.get? i, locs.get? j with
    | some li, some lj =>
      match customLookup (customEntries locs (dmatrix.getD [])) (i, j) with
      | some (d, t) => (d, t.getD d)
      | none =>
        match pairHaversine hav li lj with
        | some d => (d, d)
        | none => (0, 0)
    | _, _ => (0, 0)

/-- Locations for the C2 counterexample: two with GPS, one without. -/
def c2Locs : List RLocation :=
  [⟨"A", some 0, some 0⟩, ⟨"B", some 1, some 1⟩, ⟨"C", none, none⟩]

/-! ## C3 — schedule validator (`src/solver/validator.py`, `validate_schedule`) -/

/-- A `ScheduledTask` of `src/solver/models.py` (`start, end ≥ 0`,
`duration > 0`); `end` is a Lean keyword, hence `end_`. -/
structure ScheduledTask where
  job_id : String
  task_id : String
  machine_id : String
  start : ℕ
  end_ : ℕ
  duration : ℕ
deriving Repr, DecidableEq, Inhabited

/-- A `ValidationViolation`, restricted to its classification fields
(the description and affected-task strings are formatting only). -/
structure Violation where
  vtype : String
  severity : String
deriving Repr, DecidableEq

/-- A structured improvement suggestion: the engine emits formatted
strings; the embedding keeps exactly the data interpolated into them. -/
inductive Suggestion
  | compact (machine_id : String) (total_idle : ℕ)
  | imbalance (max_load min_load : ℕ)
  | late (job_id : String) (amount : ℕ)
deriving Repr, DecidableEq

/-- `job_map[jid]`: a dict comprehension keyed by `job_id` keeps the
last entry for a duplicated id. -/
def lookupLastJob (jobs : List SchedJob) (jid : String) : Option SchedJob :=
  jobs.reverse.find? (fun j => j.job_id == jid)

/-- `machine_map[mid]`, same dict semantics. -/
def lookupLastMachine (machines : List SchedMachine) (mid : String) : Option SchedMachine :=
  machines.reverse.find? (fun m => m.machine_id == mid)

/-- `task_lookup[(job_id, task_id)]`: built by iterating the schedule,
so a later scheduled task overwrites an earlier duplicate. -/
def taskLookup (schedule : List ScheduledTask) (jid tid : String) : Option ScheduledTask :=
  schedule.reverse.find? (fun st => st.job_id == jid && st.task_id == tid)

/-- Insert one scheduled task into the `tasks_by_machine` grouping,
preserving first-appearance key order and per-key schedule order. -/
def addToGroup (acc : List (String × List ScheduledTask)) (st : ScheduledTask) :
    List (String × List ScheduledTask) :=
  match acc with
  | [] => [(st.machine_id, [st])]
  | (k, ts) :: rest =>
    if k == st.machine_id then (k, ts ++ [st]) :: rest
    else (k, ts) :: addToGroup rest st

/-- `tasks_by_machine` (a `defaultdict(list)` filled in schedule order). -/
def tasksByMachine (schedule : List ScheduledTask) : List (String × List ScheduledTask) :=
  schedule.foldl addToGroup []

/-- Check 1 — consistency: `start + duration == end`. -/
def consistencyViolations (schedule : List ScheduledTask) : List Violation :=
  schedule.filterMap (fun st =>
    if st.start + st.duration ≠ st.end_ then some ⟨"consistency", "error"⟩ else none)

/-- Check 2 — machine existence. -/
def unknownMachineViolations (machines : List SchedMachine)
    (schedule : List ScheduledTask) : List Violation :=
  schedule.filterMap (fun st =>
    if machines.any (fun m => m.machine_id == st.machine_id) then none
    else some ⟨"unknown_machine", "error"⟩)

/-- Check 3 — unknown job / unknown task / machine eligibility (one
violation at most per scheduled task, as in the source's
`continue`-structured loop). -/
def eligibilityViolations (jobs : List SchedJob)
    (schedule : List ScheduledTask) : List Violation :=
  schedule.filterMap (fun st =>
    match lookupLastJob jobs st.job_id with
    | none => some ⟨"unknown_job", "error"⟩
    | some job =>
      match job.tasks.find? (fun t => t.task_id == st.task_id) with
      | none => some ⟨"unknown_task", "error"⟩
      | some taskDef =>
        if taskDef.eligible_machines.contains st.machine_id then none
        else some ⟨"machine_eligibility", "error"⟩)

/-- Overlap violations between consecutive start-sorted tasks of one
machine (`prev.end > next.start`). -/
def consecOverlaps : List ScheduledTask → List Violation
  | a :: b :: rest =>
      (if b.start < a.end_ then [⟨"overlap", "error"⟩] else []) ++ consecOverlaps (b :: rest)
  | _ => []

/-- Check 4 — no-overlap per machine, after a stable sort by start
(Python's `sorted` is stable; so is insertion sort). -/
def overlapViolations (schedule : List ScheduledTask) : List Violation :=
  ((tasksByMachine schedule).map (fun g =>
    consecOverlaps (g.2.insertionSort (fun a b => a.start ≤ b.start)))).join

/-- Precedence violations between consecutive task definitions of one
job (`next.start < prev.end` when both are scheduled). -/
def consecPrecedence (schedule : List ScheduledTask) (jid : String) :
    List SchedTask → List Violation
  | t1 :: t2 :: rest =>
      (match taskLookup schedule jid t1.task_id, taskLookup schedule jid t2.task_id with
       | some st1, some st2 =>
          if st2.start < st1.end_ then [⟨"precedence", "error"⟩] else []
       | _, _ => []) ++ consecPrecedence schedule jid (t2 :: rest)
  | _ => []

/-- Check 5 — precedence within jobs. -/
def precedenceViolations (jobs : List SchedJob)
    (schedule : List ScheduledTask) : List Violation :=
  (jobs.map (fun job => consecPrecedence schedule job.job_id job.tasks)).join

/-- Check 6 — job time windows (first task's start, last task's end).
`job.tasks` is validated nonempty, so the `none` head/last cases are
unreachable on real requests. -/
def timeWindowViolations (jobs : List SchedJob)
    (schedule : List ScheduledTask) : List Violation :=
  (jobs.map (fun job =>
    match job.time_window with
    | none => []
    | some tw =>
      (match job.tasks.head? with
       | some t0 =>
          match taskLookup schedule job.job_id t0.task_id with
          | some st =>
            if 0 < tw.earliest_start ∧ st.start < tw.earliest_start then
              [(⟨"time_window", "error"⟩ : Violation)]
            else []
          | none => []
       | none => [])
      ++
      (match job.tasks.getLast? with
       | some tl =>
          match taskLookup schedule job.job_id tl.task_id, tw.latest_end with
          | some st, some le =>
            if le < st.end_ then [(⟨"time_window", "error"⟩ : Violation)] else []
          | _, _ => []
       | none => []))).join

/-- Check 7 — machine availability windows. -/
def availabilityViolations (machines : List SchedMachine)
    (schedule : List ScheduledTask) : List Violation :=
  (schedule.map (fun st =>
    match lookupLastMachine machines st.machine_id with
    | none => []
    | some m =>
      (if st.start < m.availability_start then
        [(⟨"machine_availability", "error"⟩ : Violation)]
       else [])
      ++ (match m.availability_end with
          | some ae => if ae < st.end_ then [(⟨"machine_availability", "error"⟩ : Violation)] else []
          | none => []))).join

/-- Check 8 — missing tasks (warnings). -/
def missingTaskWarnings (jobs : List SchedJob)
    (schedule : List ScheduledTask) : List Violation :=
  (jobs.map (fun job => job.tasks.filterMap (fun t =>
    match taskLookup schedule job.job_id t.task_id with
    | some _ => none
    | none => some (⟨"missing_task", "warning"⟩ : Violation)))).join

/-- All eight checks, in program order. -/
def allViolations (jobs : List SchedJob) (machines : List SchedMachine)
    (schedule : List ScheduledTask) : List Violation :=
  consistencyViolations schedule
    ++ unknownMachineViolations machines schedule
    ++ eligibilityViolations jobs schedule
    ++ overlapViolations schedule
    ++ precedenceViolations jobs schedule
    ++ timeWindowViolations jobs schedule
    ++ availabilityViolations machines schedule
    ++ missingTaskWarnings jobs schedule

/-- Cumulative positive gaps between consecutive start-sorted tasks
(`gap = next.start - prev.end; if gap > 0: total += gap`). -/
def gapsSum : List ScheduledTask → ℕ
  | a :: b :: rest => (b.start - a.end_) + gapsSum (b :: rest)
  | _ => 0

/-- Minimum of a nonempty list of naturals (0 for the empty list). -/
def minList : List ℕ → ℕ
  | [] => 0
  | x :: xs => xs.foldl min x

/-- Idle-gap ("compact machine X") suggestions, per machine with a
positive cumulative gap over at least two tasks. -/
def compactSuggestions (schedule : List ScheduledTask) : List Suggestion :=
  (tasksByMachine schedule).filterMap (fun g =>
    let sorted := g.2.insertionSort (fun a b => a.start ≤ b.start)
    let totalIdle := gapsSum sorted
    if 0 < totalIdle ∧ 1 < sorted.length then some (.compact g.1 totalIdle) else none)

/-- Load-imbalance suggestion: `min_load / max_load < 0.5` over the
per-machine duration sums (`min_load = max_load` for a single machine). -/
def imbalanceSuggestions (schedule : List ScheduledTask) : List Suggestion :=
  match tasksByMachine schedule with
  | [] => []
  | groups =>
    let loads := groups.map (fun g => (g.2.map (·.duration)).sum)
    let maxLoad := maxList loads
    let minLoad := if 1 < loads.length then minList loads else maxLoad
    if 0 < maxLoad ∧ (minLoad : ℚ) / (maxLoad : ℚ) < 1/2 then
      [.imbalance maxLoad minLoad]
    else []

/-- Late-job reports for jobs whose last task ends past the due date. -/
def lateSuggestions (jobs : List SchedJob) (schedule : List ScheduledTask) :
    List Suggestion :=
  jobs.filterMap (fun job =>
    match job.due_date with
    | none => none
    | some d =>
      match job.tasks.getLast? with
      | none => none
      | some tl =>
        match taskLookup schedule job.job_id tl.task_id with
        | some st => if d < st.end_ then some (.late job.job_id (st.end_ - d)) else none
        | none => none)

/-- The response fields of `validate_schedule` that the claims are
about: `is_valid` (no error-severity violations), the violation list,
and the improvement suggestions — which the source gates behind
`if not violations:` (no violations at all, warnings included). -/
structure ValidateResponse where
  is_valid : Bool
  violations : List Violation
  improvement_suggestions : List Suggestion
deriving Repr, DecidableEq

/-- `validate_schedule` (`src/solver/validator.py` lines 18–232),
restricted to the validation verdict and the suggestions. -/
def validateSchedule (jobs : List SchedJob) (machines : List SchedMachine)
    (schedule : List ScheduledTask) : ValidateResponse :=
  let violations := allViolations jobs machines schedule
  let suggestions :=
    if violations.isEmpty then
      compactSuggestions schedule ++ imbalanceSuggestions schedule
        ++ lateSuggestions jobs schedule
    else []
  ⟨violations.all (fun v => v.severity != "error"), violations, suggestions⟩

/-- C3 counterexample data: a late job `J1` (due 2, ends 3) plus a
second job whose only task is absent from the schedule (a warning). -/
def c3Jobs : List SchedJob :=
  [⟨"J1", [⟨"t1", 3, ["M1"], 0⟩], 1, some 2, none⟩,
   ⟨"J2", [⟨"t2", 2, ["M1"], 0⟩], 1, none, none⟩]

def c3Machines : List SchedMachine := [⟨"M1", 0, none⟩]

def c3Schedule : List ScheduledTask := [⟨"J1", "t1", "M1", 0, 3, 3⟩]

/-- C3 witness data: the same late job alone, so that the schedule has
no violations at all. -/
def c3wJobs : List SchedJob := [⟨"J1", [⟨"t1", 3, ["M1"], 0⟩], 1, some 2, none⟩]

/-! ## C7 — stochastic scenario generation and reproducibility
(`src/stochastic/engine.py`, `_generate_scenarios` and
`optimize_stochastic`)

The Mersenne-Twister stream and the float distribution draws of
`_sample_value` are not exactly embeddable, so sampling is modelled as
an explicit deterministic state transformer `draw` over an abstract rng
state `σ` (`random.Random(seed)` is the initial state): this mirrors the
code's single `rng` object threaded through every sample, with no other
source of randomness.  The distribution parameters of each
`StochasticParameter` travel inside `draw`. -/

/-- A `StochasticParameter`, keyed by its path. -/
structure StochParam where
  parameter_path : String
deriving Repr, DecidableEq

/-- `_sample_value`: one abstract distribution draw followed by the
concrete type-preserving coercion (C4's `sampleCoerce`). -/
def sampleValue {σ : Type} (draw : StochParam → ℚ → σ → ℚ × σ)
    (p : StochParam) (nominal : PyNum) (st : σ) : PyNum × σ :=
  let v := draw p nominal.toQ st
  (sampleCoerce nominal v.1, v.2)

/-- The inner `for p in params` loop of `_generate_scenarios`: one
scenario dict, threading the rng state. -/
def genOneScenario {σ : Type} (draw : StochParam → ℚ → σ → ℚ × σ)
    (params : List StochParam) (noms : String → PyNum) (st : σ) :
    List (String × PyNum) × σ :=
  params.foldl
    (fun acc p =>
      let v := sampleValue draw p (noms p.parameter_path) acc.2
      (acc.1 ++ [(p.parameter_path, v.1)], v.2))
    ([], st)

/-- `_generate_scenarios` (lines 118–135): `num_scenarios` scenario
dicts from one seeded rng stream. -/
def genScenarios {σ : Type} (draw : StochParam → ℚ → σ → ℚ × σ)
    (params : List StochParam) (noms : String → PyNum) :
    ℕ → σ → List (List (String × PyNum))
  | 0, _ => []
  | n + 1, st =>
    let p := genOneScenario draw params noms st
    p.1 :: genScenarios draw params noms n p.2

/-- The `expected_value` pipeline of `optimize_stochastic`
(lines 227–316): solve each scenario on a mutated copy of the base
document (`apply`), collect the objectives of feasible outcomes, and
report `round(mean, 2)`; `none` models the all-infeasible error
response. -/
def stochExpectedValue {σ δ : Type} (draw : StochParam → ℚ → σ → ℚ × σ)
    (apply : δ → List (String × PyNum) → δ) (solve : δ → String × ℚ) (doc : δ)
    (params : List StochParam) (noms : String → PyNum)
    (numScenarios : ℕ) (seedState : σ) : Option ℚ :=
  let scens := genScenarios draw params noms numScenarios seedState
  let outcomes := scens.map (fun scen => solve (apply doc scen))
  let feas := (outcomes.filter (fun o => o.1 == "optimal" || o.1 == "feasible")).map (·.2)
  if feas.isEmpty then none
  else some (pyRound2 (feas.sum / (feas.length : ℚ)))

/-! ## C9 — deep-copy discipline of the scenario loops

Python dicts, lists and scalars live on a heap of reference cells; the
scenario loops of the Layer-2 engines read the base request document,
`copy.deepcopy` it, and `_set_path` scenario values onto the copy.  The
embedding models the heap explicitly: a `Store` is a list of `Node`s
addressed by index, `copyNode` is `copy.deepcopy` (allocating only
fresh addresses), and `setPath` is `_set_path` (writing only through
addresses reached from its root).  The claimed frame property is that
after a whole scenario loop the document readable from the base address
is unchanged. -/

/-- A heap cell: a dict (field name → address), a list (element
addresses), or a scalar. -/
inductive Node
  | obj (fields : List (String × ℕ))
  | arr (elems : List ℕ)
  | num (v : ℚ)
  | str (s : String)
deriving Repr, DecidableEq, Inhabited

/-- The heap: cell at address `a` is the list entry at index `a`;
allocation appends. -/
abbrev Store := List Node

def getNode (s : Store) (a : ℕ) : Option Node := s.get? a

/-- The addresses a cell refers to. -/
def childAddrs : Option Node → List ℕ
  | some (.obj fs) => fs.map (·.2)
  | some (.arr es) => es
  | _ => []

mutual
/-- `copy.deepcopy` of one heap node, fuel-bounded (request documents
are finite trees, so a large enough fuel copies them exactly; the fuel
fallback allocates a dummy scalar): copy the children recursively, then
allocate the node itself at a fresh address. -/
def copyNode : ℕ → Store → ℕ → Store × ℕ
  | 0, s, _ => (s ++ [.num 0], s.length)
  | fuel + 1, s, a =>
    match getNode s a with
    | some (.obj fs) =>
      let p := copyFields fuel s fs
      (p.1 ++ [.obj p.2], p.1.length)
    | some (.arr es) =>
      let p := copyElems fuel s es
      (p.1 ++ [.arr p.2], p.1.length)
    | some (.num v) => (s ++ [.num v], s.length)
    | some (.str t) => (s ++ [.str t], s.length)
    | none => (s ++ [.num 0], s.length)
termination_by fuel _ _ => (fuel, 0)

/-- Copy the field values of a dict node, threading the store. -/
def copyFields : ℕ → Store → List (String × ℕ) → Store × List (String × ℕ)
  | _, s, [] => (s, [])
  | fuel, s, kv :: rest =>
    let p := copyNode fuel s kv.2
    let q := copyFields fuel p.1 rest
    (q.1, (kv.1, p.2) :: q.2)
termination_by fuel _ l => (fuel, l.length + 1)

/-- Copy the elements of a list node, threading the store. -/
def copyElems : ℕ → Store → List ℕ → Store × List ℕ
  | _, s, [] => (s, [])
  | fuel, s, e :: rest =>
    let p := copyNode fuel s e
    let q := copyElems fuel p.1 rest
    (q.1, p.2 :: q.2)
termination_by fuel _ l => (fuel, l.length + 1)
end

/-- One segment of a dot-notation parameter path: `field` or
`field[id]`. -/
inductive Seg
  | field (name : String)
  | fieldId (name : String) (key : String)
deriving Repr, DecidableEq

/-- The id fields used to select a list element by bracketed key. -/
def idFields : List String :=
  ["job_id", "task_id", "machine_id", "location_id", "vehicle_id", "item_id", "bin_id"]

/-- Python dict lookup on a dict node's fields. -/
def objField (fs : List (String × ℕ)) (k : String) : Option ℕ :=
  (fs.find? (fun kv => kv.1 == k)).map (·.2)

/-- `item.get(id_field) == key` for some id field: the item is a dict
one of whose id-field values is the string `key`. -/
def matchesId (s : Store) (item : ℕ) (key : String) : Bool :=
  match getNode s item with
  | some (.obj fs) =>
    idFields.any (fun idf =>
      match objField fs idf with
      | some ca =>
        match getNode s ca with
        | some (.str v) => v == key
        | _ => false
      | none => false)
  | _ => false

/-- The item-selection loop of `_set_path` (`src/robust/engine.py`
lines 74–84): it has no `found` flag, so a later matching item
overwrites an earlier one; with no match, `current` stays the list
itself. -/
def selectItem (s : Store) (items : List ℕ) (key : String) (cur : ℕ) : ℕ :=
  items.foldl (fun c it => if matchesId s it key then it else c) cur

/-- One navigation step of `_set_path`: `current = current[field]`,
then for a bracketed segment the list-item selection (a non-list field
value is kept as is, mirroring the `isinstance(current, list)` guard).
`none` models a raised `KeyError`/`TypeError`, which the engines catch
(skipping the write). -/
def navSeg (s : Store) (a : ℕ) : Seg → Option ℕ
  | .field name =>
    match getNode s a with
    | some (.obj fs) => objField fs name
    | _ => none
  | .fieldId name key =>
    match getNode s a with
    | some (.obj fs) =>
      match objField fs name with
      | some fa =>
        match getNode s fa with
        | some (.arr items) => some (selectItem s items key fa)
        | some _ => some fa
        | none => none
      | none => none
    | _ => none

/-- Navigation over `parts[:-1]`. -/
def navigate (s : Store) : ℕ → List Seg → Option ℕ
  | a, [] => some a
  | a, seg :: rest =>
    match navSeg s a seg with
    | some b => navigate s b rest
    | none => none

/-- Python dict assignment on a dict node's fields: replace the first
binding of `k` or append a new one, pointing at address `a`. -/
def updateField : List (String × ℕ) → String → ℕ → List (String × ℕ)
  | [], k, a => [(k, a)]
  | kv :: rest, k, a => if kv.1 == k then (k, a) :: rest else kv :: updateField rest k a

/-- `_set_path(doc, path, value)`: navigate `parts[:-1]` from the root,
then `current[parts[-1]] = value`; the written scalar is allocated at a
fresh address.  A failure (`KeyError` on navigation, `TypeError` on a
non-dict terminal) leaves the store unchanged, as the engines catch the
exception and skip the scenario entry. -/
def setPath (s : Store) (root : ℕ) (segs : List Seg) (term : String) (v : ℚ) : Store :=
  match navigate s root segs with
  | none => s
  | some p =>
    match getNode s p with
    | some (.obj fs) => (s.set p (.obj (updateField fs term s.length))) ++ [.num v]
    | _ => s

/-- The scenario loop shared by `optimize_robust` (lines 201–216),
`optimize_stochastic` (lines 233–247) and the sensitivity perturbation
loop (lines 274–289): for each scenario, deep-copy the base document
and `_set_path` each scenario value onto the copy.  (The loop also
*reads* the base document to re-coerce integer values — C4 — and hands
the copy to `_solve`; neither touches the store.) -/
def scenarioLoop (fuel : ℕ) (s : Store) (base : ℕ)
    (scens : List (List ((List Seg × String) × ℚ))) : Store :=
  scens.foldl
    (fun st scen =>
      let c := copyNode fuel st base
      scen.foldl (fun st2 pv => setPath st2 c.2 pv.1.1 pv.1.2 pv.2) c.1)
    s

/-- A pure document tree, the result of reading a store; `bad` marks a
dangling address or exhausted fuel. -/
inductive PDoc
  | obj (fields : List (String × PDoc))
  | arr (elems : List PDoc)
  | num (v : ℚ)
  | str (s : String)
  | bad
deriving Inhabited

/-- Read the document rooted at an address (fuel-bounded). -/
def readPure : ℕ → Store → ℕ → PDoc
  | 0, _, _ => .bad
  | fuel + 1, s, a =>
    match getNode s a with
    | some (.obj fs) => .obj (fs.map (fun kv => (kv.1, readPure fuel s kv.2)))
    | some (.arr es) => .arr (es.map (fun e => readPure fuel s e))
    | some (.num v) => .num v
    | some (.str t) => .str t
    | none => .bad

/-- `s'` and `s` hold identical cells below address `n`. -/
def AgreeBelow (n : ℕ) (s s' : Store) : Prop :=
  ∀ a, a < n → getNode s' a = getNode s a

/-- Every cell below `n` refers only to addresses below `n` (the base
document is self-contained). -/
def Closed (n : ℕ) (s : Store) : Prop :=
  ∀ a, a < n → ∀ c ∈ childAddrs (getNode s a), c < n

/-- Every cell at address `≥ n` refers only to addresses `≥ n` (the
freshly copied region is self-contained upward). -/
def HighFrom (n : ℕ) (s : Store) : Prop :=
  ∀ a, n ≤ a → ∀ c ∈ childAddrs (getNode s a), n ≤ c

instance closedDecidable (n : ℕ) (s : Store) : Decidable (Closed n s) :=
  decidable_of_iff (∀ a, a < n → ∀ c ∈ childAddrs (getNode s a), c < n) Iff.rfl

/-! # Theorems -/

/-! ## Rounding lemmas -/

theorem pyRoundInt_nonneg {x : ℚ} (hx : 0 ≤ x) : 0 ≤ pyRoundInt x := by
  have hf : (0 : ℤ) ≤ ⌊x⌋ := Int.le_floor.mpr (by exact_mod_cast hx)
  unfold pyRoundInt
  dsimp only
  split
  · exact hf
  · split
    · omega
    · split <;> omega

theorem pyRound2_nonneg {x : ℚ} (hx : 0 ≤ x) : 0 ≤ pyRound2 x := by
  unfold pyRound2
  have h := pyRoundInt_nonneg (show (0 : ℚ) ≤ x * 100 by linarith)
  have h' : (0 : ℚ) ≤ (pyRoundInt (x * 100) : ℚ) := by exact_mod_cast h
  linarith

theorem pyRoundInt_intCast (m : ℤ) : pyRoundInt (m : ℚ) = m := by
  unfold pyRoundInt
  norm_num

theorem pyRoundInt_zero : pyRoundInt 0 = 0 := by
  simpa using pyRoundInt_intCast 0

theorem pyRound2_zero : pyRound2 0 = 0 := by
  unfold pyRound2
  norm_num [pyRoundInt_zero]

/-! ## C8 lemmas and theorem -/

theorem foldl_max_shift (b : ℕ) (l : List ℕ) : l.foldl max b = max b (maxList l) := by
  induction l generalizing b with
  | nil => simp [maxList]
  | cons x xs ih =>
    have h1 : (x :: xs).foldl max b = xs.foldl max (max b x) := rfl
    have h2 : maxList (x :: xs) = xs.foldl max (max 0 x) := rfl
    rw [h1, h2, ih (max b x), ih (max 0 x)]
    omega

theorem maxList_cons (x : ℕ) (l : List ℕ) : maxList (x :: l) = max x (maxList l) := by
  have h : maxList (x :: l) = l.foldl max (max 0 x) := rfl
  rw [h, foldl_max_shift]
  omega

theorem maxList_append (a b : List ℕ) :
    maxList (a ++ b) = max (maxList a) (maxList b) := by
  induction a with
  | nil => simp [maxList]
  | cons x xs ih =>
    rw [List.cons_append, maxList_cons, maxList_cons, ih]
    omega

theorem machine_fold_eq (h0 : ℕ) (machines : List SchedMachine) :
    machines.foldl machineHorizonStep h0
    = max h0 (maxList (machines.filterMap (·.availability_end))) := by
  induction machines generalizing h0 with
  | nil => simp [maxList]
  | cons m ms ih =>
    cases hm : m.availability_end with
    | none =>
      simp only [List.foldl_cons, List.filterMap_cons, hm, machineHorizonStep]
      exact ih h0
    | some e =>
      simp only [List.foldl_cons, List.filterMap_cons, hm, machineHorizonStep]
      rw [ih (max h0 e), maxList_cons]
      omega

theorem job_fold_eq (h1 : ℕ) (jobs : List SchedJob) :
    jobs.foldl jobHorizonStep h1
    = max h1 (max (maxList (jobs.filterMap (fun j => j.time_window.bind (·.latest_end))))
        (maxList ((jobs.filterMap (·.due_date)).map (· * 2)))) := by
  induction jobs generalizing h1 with
  | nil => simp [maxList]
  | cons j js ih =>
    obtain ⟨jid, tasks, prio, dd, tw⟩ := j
    rw [List.foldl_cons, ih _]
    rcases tw with _ | ⟨es, le⟩
    · rcases dd with _ | d
      · simp [jobHorizonStep, List.filterMap_cons]
      · simp only [jobHorizonStep, List.filterMap_cons, List.map_cons, Option.none_bind]
        simp only [maxList_cons]
        omega
    · rcases le with _ | le
      · rcases dd with _ | d
        · simp [jobHorizonStep, List.filterMap_cons]
        · simp only [jobHorizonStep, List.filterMap_cons, List.map_cons, Option.some_bind]
          simp only [maxList_cons]
          omega
      · rcases dd with _ | d
        · simp only [jobHorizonStep, List.filterMap_cons, Option.some_bind]
          simp only [maxList_cons]
          omega
        · simp only [jobHorizonStep, List.filterMap_cons, List.map_cons, Option.some_bind]
          simp only [maxList_cons]
          omega

/-- **C8.** For every FJSP request, the CP model's horizon equals the sum
over all tasks of `duration + setup_time`, raised to be at least every
machine's `availability_end`, every job time window's `latest_end`, and
`2 * due_date` for every job with a due date. -/
theorem horizon_eq_sum_raised_to_bounds (jobs : List SchedJob) (machines : List SchedMachine) :
    computeHorizon jobs machines
      = max (baseHorizon jobs) (maxList (horizonBounds jobs machines)) := by
  unfold computeHorizon horizonBounds
  rw [machine_fold_eq, job_fold_eq, maxList_append, maxList_append]
  omega

/-! ## C10 theorem -/

/-- **C10.** `solve_packing` never reports the status string
`"infeasible"`: a model proven unsatisfiable is reported as
`"no_solution"`, a found solution as `"optimal"`/`"feasible"`, and every
other no-solution solver outcome (`UNKNOWN`, `MODEL_INVALID`) as
`"timeout"`. -/
theorem packing_never_infeasible :
    (∀ (ni nb ra : Bool) (cp : CpStatus),
        (solvePackingStatus ni nb ra cp).value ≠ "infeasible")
    ∧ packingStatusOfCp .infeasible = .no_solution
    ∧ packingStatusOfCp .optimal = .optimal
    ∧ packingStatusOfCp .feasible = .feasible
    ∧ packingStatusOfCp .unknown = .timeout
    ∧ packingStatusOfCp .modelInvalid = .timeout := by
  refine ⟨?_, rfl, rfl, rfl, rfl, rfl⟩
  intro ni nb ra cp
  cases ni <;> cases nb <;> cases ra <;> cases cp <;> decide

/-! ## C4 lemmas, counterexample and amended theorem -/

theorem floor_neg_27_5 : ⌊(-27/5 : ℚ)⌋ = -6 := by
  rw [Int.floor_eq_iff]
  norm_num

theorem pyRoundInt_neg_27_5 : pyRoundInt (-27/5) = -5 := by
  unfold pyRoundInt
  rw [floor_neg_27_5]
  norm_num

/-- **C4, counterexample.** For an integer-typed original scalar and the
reachable robust scenario draw `v = -27/5` (a uniform sample in a range
such as `[-10, -5]`), the robust engine writes `-5`, while the claimed
value `max(0, round(v))` is `0`: the robust engine applies no floor. -/
theorem robust_write_no_floor_counterexample :
    robustWrittenValue (.int 10) (-27/5) = -5
    ∧ claimedWrittenValue (.int 10) (-27/5) = 0
    ∧ robustWrittenValue (.int 10) (-27/5) ≠ claimedWrittenValue (.int 10) (-27/5) := by
  have h1 : robustWrittenValue (.int 10) (-27/5) = -5 := by
    simp only [robustWrittenValue, robustWriteCoerce, robustScenarioCoerce, PyNum.toQ,
      pyRoundInt_neg_27_5]
    rw [show ((-5 : ℤ) : ℚ) = (((-5 : ℤ) : ℚ)) from rfl, pyRoundInt_intCast]
    norm_num
  have h2 : claimedWrittenValue (.int 10) (-27/5) = 0 := by
    unfold claimedWrittenValue
    rw [pyRoundInt_neg_27_5]
    norm_num
  exact ⟨h1, h2, by rw [h1, h2]; norm_num⟩

/-- **C4, amended.** The claimed coercion (`max(0, round(v))` for
integer originals, `max(0, round(v, 2))` otherwise) is exactly what the
sensitivity engine's `_apply_perturbation` and the stochastic engine's
`_sample_value` apply; the robust engine instead writes `int(round(v))`
with no floor of 0 for integer originals (differing from the claim
exactly when `round(v) < 0`) and `round(v, 2)` with no floor for float
originals. -/
theorem scenario_value_coercions (n : ℤ) (q v pert : ℚ) (mode : PerturbationMode) :
    (applyPerturbation (.int n) pert mode).toQ
      = claimedWrittenValue (.int n) (perturbedValue (.int n) pert mode)
    ∧ (applyPerturbation (.float q) pert mode).toQ
      = claimedWrittenValue (.float q) (perturbedValue (.float q) pert mode)
    ∧ (sampleCoerce (.int n) v).toQ = claimedWrittenValue (.int n) v
    ∧ (sampleCoerce (.float q) v).toQ = claimedWrittenValue (.float q) v
    ∧ robustWrittenValue (.int n) v = (pyRoundInt v : ℚ)
    ∧ robustWrittenValue (.float q) v = pyRound2 v
    ∧ (robustWrittenValue (.int n) v ≠ claimedWrittenValue (.int n) v
        ↔ pyRoundInt v < 0) := by
  have hrw : robustWrittenValue (.int n) v = (pyRoundInt v : ℚ) := by
    simp only [robustWrittenValue, robustWriteCoerce, robustScenarioCoerce, PyNum.toQ]
    rw [pyRoundInt_intCast]
  refine ⟨?_, ?_, ?_, ?_, hrw, ?_, ?_⟩
  · simp only [applyPerturbation, claimedWrittenValue, PyNum.toQ]
    push_cast
    ring
  · simp only [applyPerturbation, claimedWrittenValue, PyNum.toQ]
  · simp only [sampleCoerce, claimedWrittenValue, PyNum.toQ]
    push_cast
    ring
  · simp only [sampleCoerce, claimedWrittenValue, PyNum.toQ]
  · simp only [robustWrittenValue, robustWriteCoerce, robustScenarioCoerce, PyNum.toQ]
  · rw [hrw]
    have hcl : claimedWrittenValue (.int n) v = max 0 (pyRoundInt v : ℚ) := rfl
    rw [hcl]
    rcases le_or_lt 0 (pyRoundInt v) with h | h
    · rw [max_eq_right (by exact_mod_cast h)]
      simp only [ne_eq, not_true_eq_false, false_iff, not_lt]
      exact h
    · rw [max_eq_left (by
        have hq : (pyRoundInt v : ℚ) < 0 := by exact_mod_cast h
        linarith)]
      have hq : (pyRoundInt v : ℚ) ≠ 0 := by
        have := h
        exact_mod_cast (by omega : pyRoundInt v ≠ 0)
      simp [hq, h]

/-! ## C5 lemmas and theorem -/

theorem getD_eq_get (l : List ℚ) (i : ℕ) (h : i < l.length) :
    l.getD i 0 = l.get ⟨i, h⟩ := by
  simp [List.getD_eq_getElem?_getD, List.getElem?_eq_getElem h]

theorem sorted_getD_mono (l : List ℚ) (hs : l.Sorted (· ≤ ·)) {i j : ℕ}
    (hij : i ≤ j) (hj : j < l.length) : l.getD i 0 ≤ l.getD j 0 := by
  have hi : i < l.length := lt_of_le_of_lt hij hj
  rw [getD_eq_get l i hi, getD_eq_get l j hj]
  rcases eq_or_lt_of_le hij with rfl | hlt
  · exact le_refl _
  · exact List.pairwise_iff_get.mp hs ⟨i, hi⟩ ⟨j, hj⟩ hlt

theorem percentileQ_eq_interpAt (l : List ℚ) (hne : l ≠ []) (pct : ℚ) :
    percentileQ l pct = interpAt l (((l.length : ℚ) - 1) * (pct / 100)) := by
  unfold percentileQ interpAt
  rw [if_neg (by simpa [List.isEmpty_iff] using hne)]

theorem interpAt_min_eq (l : List ℚ) {k : ℚ} (hkn : k ≤ (l.length : ℚ) - 1) :
    min ⌈k⌉ ((l.length : ℤ) - 1) = ⌈k⌉ := by
  refine min_eq_left (Int.ceil_le.mpr ?_)
  push_cast
  exact hkn

theorem interpAt_bounds (l : List ℚ) (hs : l.Sorted (· ≤ ·)) (hne : l ≠ [])
    {k : ℚ} (hk0 : 0 ≤ k) (hkn : k ≤ (l.length : ℚ) - 1) :
    l.getD ⌊k⌋.toNat 0 ≤ interpAt l k ∧ interpAt l k ≤ l.getD ⌈k⌉.toNat 0 := by
  have hn1 : 1 ≤ l.length := List.length_pos.mpr hne
  have hf0 : 0 ≤ ⌊k⌋ := Int.floor_nonneg.mpr hk0
  have hceilLe : ⌈k⌉ ≤ (l.length : ℤ) - 1 := Int.ceil_le.mpr (by push_cast; exact hkn)
  have hfc : ⌊k⌋ ≤ ⌈k⌉ := Int.floor_le_ceil k
  have hcLt : ⌈k⌉.toNat < l.length := by omega
  have hfLt : ⌊k⌋.toNat < l.length := by omega
  unfold interpAt
  rw [interpAt_min_eq l hkn]
  by_cases heq : ⌊k⌋ = ⌈k⌉
  · rw [if_pos heq, heq]
    exact ⟨le_refl _, le_refl _⟩
  · rw [if_neg heq]
    have hflt : ⌊k⌋ < ⌈k⌉ := lt_of_le_of_ne hfc heq
    have hceq : ⌈k⌉ = ⌊k⌋ + 1 := by
      have := Int.ceil_le_floor_add_one k
      omega
    rw [hceq]
    rw [hceq] at hcLt
    have hab : l.getD ⌊k⌋.toNat 0 ≤ l.getD (⌊k⌋ + 1).toNat 0 :=
      sorted_getD_mono l hs (by omega) hcLt
    have hw1 : (0 : ℚ) ≤ ((⌊k⌋ + 1 : ℤ) : ℚ) - k := by
      have h := Int.le_ceil k
      rw [hceq] at h
      linarith
    have hw2 : (0 : ℚ) ≤ k - (⌊k⌋ : ℚ) := by
      have := Int.floor_le k
      linarith
    push_cast at hw1 ⊢
    constructor
    · nlinarith [mul_nonneg (sub_nonneg.mpr hab) hw2]
    · nlinarith [mul_nonneg (sub_nonneg.mpr hab) hw1]

theorem interpAt_mono (l : List ℚ) (hs : l.Sorted (· ≤ ·)) (hne : l ≠ [])
    {k1 k2 : ℚ} (hk0 : 0 ≤ k1) (h12 : k1 ≤ k2) (hkn : k2 ≤ (l.length : ℚ) - 1) :
    interpAt l k1 ≤ interpAt l k2 := by
  have hn1 : 1 ≤ l.length := List.length_pos.mpr hne
  have hk20 : 0 ≤ k2 := le_trans hk0 h12
  have hk1n : k1 ≤ (l.length : ℚ) - 1 := le_trans h12 hkn
  have hf20 : 0 ≤ ⌊k2⌋ := Int.floor_nonneg.mpr hk20
  have hf2Le : ⌊k2⌋ ≤ (l.length : ℤ) - 1 := by
    have h1 : (⌊k2⌋ : ℚ) ≤ k2 := Int.floor_le k2
    have : (⌊k2⌋ : ℚ) ≤ (l.length : ℚ) - 1 := le_trans h1 hkn
    exact_mod_cast this
  have hf2Lt : ⌊k2⌋.toNat < l.length := by omega
  by_cases hcf : ⌈k1⌉ ≤ ⌊k2⌋
  · have h1 := (interpAt_bounds l hs hne hk0 hk1n).2
    have h2 := (interpAt_bounds l hs hne hk20 hkn).1
    refine le_trans h1 (le_trans ?_ h2)
    exact sorted_getD_mono l hs (by omega) hf2Lt
  · push_neg at hcf
    have hf12 : ⌊k1⌋ ≤ ⌊k2⌋ := Int.floor_le_floor h12
    have hfloorEq : ⌊k1⌋ = ⌊k2⌋ := by
      have := Int.ceil_le_floor_add_one k1
      omega
    have hc1 : ⌈k1⌉ = ⌊k1⌋ + 1 := by
      have h := Int.floor_le_ceil k1
      have := Int.ceil_le_floor_add_one k1
      rcases eq_or_lt_of_le h with he | hlt
      · omega
      · omega
    by_cases hint2 : ⌈k2⌉ = ⌊k2⌋
    · have hk2eq : k2 = (⌊k2⌋ : ℚ) := by
        have h1 : (⌊k2⌋ : ℚ) ≤ k2 := Int.floor_le k2
        have h2 : k2 ≤ (⌈k2⌉ : ℚ) := Int.le_ceil k2
        rw [hint2] at h2
        linarith
      have hk12eq : k1 = k2 := by
        have h1 : k2 = (⌊k1⌋ : ℚ) := by rw [hk2eq, hfloorEq]
        have h2 : (⌊k1⌋ : ℚ) ≤ k1 := Int.floor_le k1
        linarith
      rw [hk12eq]
    · have hc2 : ⌈k2⌉ = ⌊k2⌋ + 1 := by
        have h := Int.floor_le_ceil k2
        have := Int.ceil_le_floor_add_one k2
        omega
      have hc1' : ⌈k1⌉ ≤ (l.length : ℤ) - 1 := Int.ceil_le.mpr (by push_cast; exact hk1n)
      have hc2' : ⌈k2⌉ ≤ (l.length : ℤ) - 1 := Int.ceil_le.mpr (by push_cast; exact hkn)
      unfold interpAt
      rw [interpAt_min_eq l hk1n, interpAt_min_eq l hkn]
      rw [if_neg (by omega), if_neg (by omega)]
      rw [hc1, hc2, hfloorEq]
      have hab : l.getD ⌊k2⌋.toNat 0 ≤ l.getD (⌊k2⌋ + 1).toNat 0 := by
        refine sorted_getD_mono l hs (by omega) (by omega)
      nlinarith [mul_nonneg (sub_nonneg.mpr hab) (sub_nonneg.mpr h12)]

theorem length_mul_le_sum (L : List ℚ) (b : ℚ) (h : ∀ x ∈ L, b ≤ x) :
    (L.length : ℚ) * b ≤ L.sum := by
  induction L with
  | nil => simp
  | cons x xs ih =>
    have hx : b ≤ x := h x (List.mem_cons_self x xs)
    have hxs : (xs.length : ℚ) * b ≤ xs.sum := ih (fun y hy => h y (List.mem_cons_of_mem x hy))
    simp only [List.length_cons, List.sum_cons]
    push_cast
    linarith

theorem drop_getD_le (l : List ℚ) (hs : l.Sorted (· ≤ ·)) (m : ℕ) (hm : m < l.length) :
    ∀ x ∈ l.drop m, l.getD m 0 ≤ x := by
  intro x hx
  obtain ⟨⟨i, hi⟩, hget⟩ := List.mem_iff_get.mp hx
  have hlen : (l.drop m).length = l.length - m := List.length_drop m l
  have hmi : m + i < l.length := by omega
  have hgd : (l.drop m).get ⟨i, hi⟩ = l.get ⟨m + i, hmi⟩ := by
    simp only [List.get_eq_getElem]
    rw [List.getElem_drop']
  rw [← hget, hgd, ← getD_eq_get l (m + i) hmi]
  exact sorted_getD_mono l hs (by omega) hmi

/-- Core of the `CVaR_p ≥ VaR_p` inequality, for any percentage `p < 100`
with `(n·p) % 100 ≤ p` (true for `p ∈ {90, 95, 99}` and every `n`). -/
theorem percentile_le_cvar_aux (l : List ℚ) (hs : l.Sorted (· ≤ ·)) (hne : l ≠ [])
    (p : ℕ) (hp : p < 100) (hmod : (l.length * p) % 100 ≤ p) :
    percentileQ l (p : ℚ) ≤ cvarQ l (p : ℚ) := by
  have hn1 : 1 ≤ l.length := List.length_pos.mpr hne
  set n := l.length with hn
  set a := (n * p) / 100 with ha
  set r := (n * p) % 100 with hr
  have hdiv : n * p = 100 * a + r ∧ r < 100 := by
    constructor
    · rw [ha, hr]
      omega
    · rw [hr]
      omega
  have hnp99 : n * p ≤ n * 99 := Nat.mul_le_mul_left n (by omega)
  have haLt : a < n := by omega
  have hq : ((n : ℚ) * p) = 100 * (a : ℚ) + (r : ℚ) := by
    have := congrArg (Nat.cast : ℕ → ℚ) hdiv.1
    push_cast at this
    linarith
  have hrq : (r : ℚ) < 100 := by exact_mod_cast hdiv.2
  have hr0 : (0 : ℚ) ≤ (r : ℚ) := by positivity
  -- the ceiling defining the CVaR tail size
  have hceilTail : ⌈(n : ℚ) * (1 - (p : ℚ) / 100)⌉ = (n : ℤ) - a := by
    rw [Int.ceil_eq_iff]
    constructor
    · push_cast
      have h2 : (n : ℚ) * (p : ℚ) / 100 < (a : ℚ) + 1 := by
        rw [div_lt_iff₀ (by norm_num : (0:ℚ) < 100)]
        linarith
      have hexp : (n : ℚ) * (1 - (p : ℚ) / 100) = (n : ℚ) - (n : ℚ) * (p : ℚ) / 100 := by
        ring
      rw [hexp]
      linarith
    · push_cast
      have h3 : (a : ℚ) ≤ (n : ℚ) * (p : ℚ) / 100 := by
        rw [le_div_iff₀ (by norm_num : (0:ℚ) < 100)]
        linarith
      have hexp : (n : ℚ) * (1 - (p : ℚ) / 100) = (n : ℚ) - (n : ℚ) * (p : ℚ) / 100 := by
        ring
      rw [hexp]
      linarith
  -- the percentile rank ceiling is at most a
  have hceilRank : ⌈((n : ℚ) - 1) * ((p : ℚ) / 100)⌉ ≤ (a : ℤ) := by
    rw [Int.ceil_le]
    push_cast
    have hrp : (r : ℚ) ≤ (p : ℚ) := by exact_mod_cast hmod
    have hexp : ((n : ℚ) - 1) * ((p : ℚ) / 100) = ((n : ℚ) * (p : ℚ) - (p : ℚ)) / 100 := by
      ring
    rw [hexp, div_le_iff₀ (by norm_num : (0:ℚ) < 100)]
    linarith
  -- unfold cvar
  have hcv : cvarQ l (p : ℚ) = (l.drop a).sum / ((l.drop a).length : ℚ) := by
    unfold cvarQ
    rw [if_neg (by simpa [List.isEmpty_iff] using hne)]
    have ht : max 1 (⌈(l.length : ℚ) * (1 - (p : ℚ) / 100)⌉).toNat = n - a := by
      rw [← hn, hceilTail]
      omega
    rw [ht]
    simp only [← hn]
    have h3 : n - (n - a) = a := by omega
    rw [h3]
  rw [hcv]
  -- chain the inequalities
  have hk0 : (0 : ℚ) ≤ ((n : ℚ) - 1) * ((p : ℚ) / 100) := by
    have h1 : (1 : ℚ) ≤ (n : ℚ) := by exact_mod_cast hn1
    have h2 : (0 : ℚ) ≤ (p : ℚ) / 100 := by positivity
    nlinarith
  have hkn : ((n : ℚ) - 1) * ((p : ℚ) / 100) ≤ (n : ℚ) - 1 := by
    have h1 : (1 : ℚ) ≤ (n : ℚ) := by exact_mod_cast hn1
    have h2 : (p : ℚ) / 100 ≤ 1 := by
      rw [div_le_one (by norm_num : (0:ℚ) < 100)]
      exact_mod_cast le_of_lt hp
    nlinarith
  have hb := (interpAt_bounds l hs hne hk0 hkn).2
  rw [percentileQ_eq_interpAt l hne]
  have haLt' : a < l.length := haLt
  have hstep : l.getD (⌈((n : ℚ) - 1) * ((p : ℚ) / 100)⌉).toNat 0 ≤ l.getD a 0 := by
    refine sorted_getD_mono l hs ?_ haLt'
    omega
  have hlen : (l.drop a).length = n - a := List.length_drop a l
  have hlenPos : (0 : ℚ) < ((l.drop a).length : ℚ) := by
    rw [hlen]
    have : 0 < n - a := by omega
    exact_mod_cast this
  have hmean : l.getD a 0 ≤ (l.drop a).sum / ((l.drop a).length : ℚ) := by
    rw [le_div_iff₀ hlenPos]
    have := length_mul_le_sum (l.drop a) (l.getD a 0) (drop_getD_le l hs a haLt')
    linarith
  calc interpAt l (((n : ℚ) - 1) * ((p : ℚ) / 100))
      ≤ l.getD (⌈((n : ℚ) - 1) * ((p : ℚ) / 100)⌉).toNat 0 := hb
    _ ≤ l.getD a 0 := hstep
    _ ≤ (l.drop a).sum / ((l.drop a).length : ℚ) := hmean

/-- **C5.** For every nonempty ascending list of feasible objectives,
the risk metrics of `optimize_stochastic` satisfy
`VaR_90 ≤ VaR_95 ≤ VaR_99 ≤ worst_case` and `CVaR_p ≥ VaR_p` for
`p ∈ {90, 95, 99}`, where `VaR_p` is the linearly interpolated `p`-th
percentile and `CVaR_p` the mean of the worst `max(1, ⌈n·(1−p/100)⌉)`
outcomes. -/
theorem stochastic_var_cvar_ordering (l : List ℚ) (hs : l.Sorted (· ≤ ·)) (hne : l ≠ []) :
    percentileQ l 90 ≤ percentileQ l 95
    ∧ percentileQ l 95 ≤ percentileQ l 99
    ∧ percentileQ l 99 ≤ l.getD (l.length - 1) 0
    ∧ percentileQ l 90 ≤ cvarQ l 90
    ∧ percentileQ l 95 ≤ cvarQ l 95
    ∧ percentileQ l 99 ≤ cvarQ l 99 := by
  have hn1 : 1 ≤ l.length := List.length_pos.mpr hne
  have hn0 : (0 : ℚ) ≤ (l.length : ℚ) - 1 := by
    have : (1 : ℚ) ≤ (l.length : ℚ) := by exact_mod_cast hn1
    linarith
  have hmono : ∀ p1 p2 : ℚ, 0 ≤ p1 → p1 ≤ p2 → p2 ≤ 100 →
      percentileQ l p1 ≤ percentileQ l p2 := by
    intro p1 p2 h0 h12 h100
    rw [percentileQ_eq_interpAt l hne, percentileQ_eq_interpAt l hne]
    refine interpAt_mono l hs hne ?_ ?_ ?_
    · have h2 : (0 : ℚ) ≤ p1 / 100 := by positivity
      exact mul_nonneg hn0 h2
    · have h2 : p1 / 100 ≤ p2 / 100 := by linarith
      exact mul_le_mul_of_nonneg_left h2 hn0
    · have h2 : p2 / 100 ≤ 1 := by linarith
      nlinarith
  have hworst : percentileQ l 99 ≤ l.getD (l.length - 1) 0 := by
    rw [percentileQ_eq_interpAt l hne]
    have hk0 : (0 : ℚ) ≤ ((l.length : ℚ) - 1) * (99 / 100) := by
      have h2 : (0 : ℚ) ≤ (99 : ℚ) / 100 := by norm_num
      exact mul_nonneg hn0 h2
    have hkn : ((l.length : ℚ) - 1) * (99 / 100) ≤ (l.length : ℚ) - 1 := by
      nlinarith
    have hb := (interpAt_bounds l hs hne hk0 hkn).2
    refine le_trans hb (sorted_getD_mono l hs ?_ (by omega))
    have hc : ⌈((l.length : ℚ) - 1) * (99 / 100)⌉ ≤ (l.length : ℤ) - 1 :=
      Int.ceil_le.mpr (by push_cast; exact hkn)
    omega
  have hc90 := percentile_le_cvar_aux l hs hne 90 (by norm_num) (by omega)
  have hc95 := percentile_le_cvar_aux l hs hne 95 (by norm_num) (by omega)
  have hc99 := percentile_le_cvar_aux l hs hne 99 (by norm_num) (by omega)
  have hcast : ∀ p : ℕ, ((p : ℚ)) = ((p : ℚ)) := fun _ => rfl
  refine ⟨hmono 90 95 (by norm_num) (by norm_num) (by norm_num),
    hmono 95 99 (by norm_num) (by norm_num) (by norm_num),
    hworst, ?_, ?_, ?_⟩
  · have h90 : ((90 : ℕ) : ℚ) = (90 : ℚ) := by norm_num
    rw [h90] at hc90
    exact hc90
  · have h95 : ((95 : ℕ) : ℚ) = (95 : ℚ) := by norm_num
    rw [h95] at hc95
    exact hc95
  · have h99 : ((99 : ℕ) : ℚ) = (99 : ℚ) := by norm_num
    rw [h99] at hc99
    exact hc99

/-- Witness for the C5 theorem at the concrete feasible-objective list
`[1, 2, 4, 8]`. -/
theorem stochastic_var_cvar_ordering_witness :
    ([1, 2, 4, 8] : List ℚ).Sorted (· ≤ ·)
    ∧ ([1, 2, 4, 8] : List ℚ) ≠ []
    ∧ (percentileQ [1, 2, 4, 8] 90 ≤ percentileQ [1, 2, 4, 8] 95
       ∧ percentileQ [1, 2, 4, 8] 95 ≤ percentileQ [1, 2, 4, 8] 99
       ∧ percentileQ [1, 2, 4, 8] 99
           ≤ ([1, 2, 4, 8] : List ℚ).getD (([1, 2, 4, 8] : List ℚ).length - 1) 0
       ∧ percentileQ [1, 2, 4, 8] 90 ≤ cvarQ [1, 2, 4, 8] 90
       ∧ percentileQ [1, 2, 4, 8] 95 ≤ cvarQ [1, 2, 4, 8] 95
       ∧ percentileQ [1, 2, 4, 8] 99 ≤ cvarQ [1, 2, 4, 8] 99) :=
  ⟨by norm_num [List.sorted_cons],
   by simp,
   stochastic_var_cvar_ordering [1, 2, 4, 8] (by norm_num [List.sorted_cons]) (by simp)⟩

/-! ## C1 lemmas, counterexample and amended theorem -/

/-- `⌈x⌉ = -⌊-x⌋`, as a rewrite enabling `norm_num` to evaluate
ceilings of rational literals. -/
theorem ceil_eval (x : ℚ) : ⌈x⌉ = -⌊-x⌋ := by
  rw [Int.floor_neg, neg_neg]

theorem sorted_mem_le_getD_last (l : List ℚ) (hs : l.Sorted (· ≤ ·)) {x : ℚ}
    (hx : x ∈ l) : x ≤ l.getD (l.length - 1) 0 := by
  obtain ⟨⟨i, hi⟩, rfl⟩ := List.mem_iff_get.mp hx
  rw [← getD_eq_get l i hi]
  exact sorted_getD_mono l hs (by omega) (by omega)

/-- **C1, counterexample.** In `regret_minimization` mode with a nominal
scenario objective of 10 and three feasible scenarios at 2 (mean 4, so 2
is the feasible objective closest to the mean), `optimize_robust`
selects a scenario strictly better than nominal and reports
`price_of_robustness_pct = -80 < 0`. -/
theorem robust_price_negative_counterexample :
    priceOfRobustness [⟨10, true⟩, ⟨2, true⟩, ⟨2, true⟩, ⟨2, true⟩]
      RobustMode.regret_minimization = -80
    ∧ ¬ (0 ≤ priceOfRobustness [⟨10, true⟩, ⟨2, true⟩, ⟨2, true⟩, ⟨2, true⟩]
        RobustMode.regret_minimization) := by
  have h : priceOfRobustness [⟨10, true⟩, ⟨2, true⟩, ⟨2, true⟩, ⟨2, true⟩]
      RobustMode.regret_minimization = -80 := by
    norm_num [priceOfRobustness, feasibleObjectives, robustTargetObj, pyMinByAbsDist,
      robustScenario, List.find?, List.filter, List.headI, pyRound2, pyRoundInt]
  exact ⟨h, by rw [h]; norm_num⟩

/-- **C1, amended.** The reported `price_of_robustness_pct` is
nonnegative in `worst_case` mode (for every scenario-result list with at
least one feasible scenario); under `percentile_90`, `percentile_95` and
`regret_minimization` the selected robust scenario's objective can
improve on the nominal objective and the price can be negative. -/
theorem robust_price_nonneg_worst_case (results : List ScenResult)
    (hne : results ≠ []) :
    0 ≤ priceOfRobustness results RobustMode.worst_case := by
  obtain ⟨r0, rest, rfl⟩ := List.exists_cons_of_ne_nil hne
  unfold priceOfRobustness
  dsimp only
  by_cases hcond : (r0 :: rest).headI.feasible
      && decide (0 < (r0 :: rest).headI.objective_value)
  · rw [if_pos hcond]
    simp only [List.headI, Bool.and_eq_true, decide_eq_true_eq] at hcond
    obtain ⟨hr0f, hr0pos⟩ := hcond
    set F := feasibleObjectives (r0 :: rest) with hF
    set S := F.mergeSort with hS
    have hSsorted : S.Sorted (· ≤ ·) := List.sorted_mergeSort' F
    have hmemS : ∀ x, x ∈ S ↔ x ∈ F := fun x => (List.mergeSort_perm F _).mem_iff
    have hr0F : r0.objective_value ∈ F := by
      rw [hF]
      unfold feasibleObjectives
      exact List.mem_map_of_mem _ (List.mem_filter.mpr ⟨List.mem_cons_self r0 rest, hr0f⟩)
    have hworst : r0.objective_value ≤ S.getD (S.length - 1) 0 :=
      sorted_mem_le_getD_last S hSsorted ((hmemS _).mpr hr0F)
    set worst := S.getD (S.length - 1) 0 with hw
    have htgt : robustTargetObj RobustMode.worst_case S F
        (F.sum / (F.length : ℚ)) = worst := rfl
    rw [htgt]
    set pred := fun r : ScenResult =>
      r.feasible && decide (|r.objective_value - worst| < 1/100) with hpred
    by_cases hmatch0 : pred r0 = true
    · have hfind : (r0 :: rest).find? pred = some r0 := List.find?_cons_of_pos rest hmatch0
      unfold robustScenario
      rw [hfind]
      simp only [List.headI]
      rw [sub_self, zero_div, zero_mul]
      rw [show pyRound2 0 = 0 from pyRound2_zero]
    · rcases hfind : (r0 :: rest).find? pred with _ | r
      · unfold robustScenario
        rw [hfind]
        simp only [List.headI]
        rw [sub_self, zero_div, zero_mul]
        rw [show pyRound2 0 = 0 from pyRound2_zero]
      · unfold robustScenario
        rw [hfind]
        simp only [List.headI]
        have hprops := List.find?_some hfind
        rw [hpred] at hprops
        simp only [Bool.and_eq_true, decide_eq_true_eq] at hprops
        obtain ⟨hrf, hrnear⟩ := hprops
        have hnot : ¬ (|r0.objective_value - worst| < 1/100) := by
          intro habs
          apply hmatch0
          rw [hpred]
          simp only [Bool.and_eq_true, decide_eq_true_eq]
          exact ⟨hr0f, habs⟩
        have hgap : 1/100 ≤ worst - r0.objective_value := by
          rw [abs_sub_comm] at hnot
          rw [not_lt] at hnot
          calc (1 : ℚ)/100 ≤ |worst - r0.objective_value| := hnot
            _ = worst - r0.objective_value := abs_of_nonneg (by linarith)
        have hrgt : r0.objective_value < r.objective_value := by
          have h1 : r.objective_value - worst > -(1/100) := by
            have := abs_lt.mp hrnear
            linarith [this.1]
          linarith
        apply pyRound2_nonneg
        have hnum : 0 < r.objective_value - r0.objective_value := by linarith
        positivity
  · rw [if_neg hcond]

/-- Witness for the amended C1 theorem at a one-scenario result list. -/
theorem robust_price_nonneg_worst_case_witness :
    ([⟨5, true⟩] : List ScenResult) ≠ []
    ∧ 0 ≤ priceOfRobustness [⟨5, true⟩] RobustMode.worst_case :=
  ⟨by simp, robust_price_nonneg_worst_case [⟨5, true⟩] (by simp)⟩

/-! ## C3 counterexample and amended theorem -/

/-- **C3, counterexample.** A schedule whose only violation is a
`missing_task` **warning** (no error-severity violations) and which has
an applicable late-job report (`J1` is 1 unit late) gets **no**
suggestions: the source gates suggestions behind `if not violations:`,
so any warning suppresses them, contradicting the claim. -/
theorem validator_suggestions_counterexample :
    (validateSchedule c3Jobs c3Machines c3Schedule).violations
      = [⟨"missing_task", "warning"⟩]
    ∧ (validateSchedule c3Jobs c3Machines c3Schedule).is_valid = true
    ∧ lateSuggestions c3Jobs c3Schedule = [.late "J1" 1]
    ∧ (validateSchedule c3Jobs c3Machines c3Schedule).improvement_suggestions = [] := by
  refine ⟨by decide, by decide, by decide, by decide⟩

/-- **C3, amended.** The applicable improvement suggestions (per-machine
compaction, load imbalance, late-job reports) are produced exactly when
the violation list is **empty** — not merely free of error-severity
violations; warning-severity violations also suppress them. -/
theorem validator_suggestions_when_no_violations (jobs : List SchedJob)
    (machines : List SchedMachine) (schedule : List ScheduledTask)
    (hclean : allViolations jobs machines schedule = []) :
    (validateSchedule jobs machines schedule).improvement_suggestions
      = compactSuggestions schedule ++ imbalanceSuggestions schedule
          ++ lateSuggestions jobs schedule
    ∧ (∀ g ∈ tasksByMachine schedule,
        0 < gapsSum (g.2.insertionSort (fun a b => a.start ≤ b.start))
        → 1 < (g.2.insertionSort (fun a b => a.start ≤ b.start)).length
        → Suggestion.compact g.1
            (gapsSum (g.2.insertionSort (fun a b => a.start ≤ b.start)))
            ∈ (validateSchedule jobs machines schedule).improvement_suggestions)
    ∧ (∀ s ∈ imbalanceSuggestions schedule,
        s ∈ (validateSchedule jobs machines schedule).improvement_suggestions)
    ∧ (∀ job ∈ jobs, ∀ d, job.due_date = some d →
        ∀ tl, job.tasks.getLast? = some tl →
        ∀ st, taskLookup schedule job.job_id tl.task_id = some st →
        d < st.end_ →
        Suggestion.late job.job_id (st.end_ - d)
          ∈ (validateSchedule jobs machines schedule).improvement_suggestions) := by
  have hsugg : (validateSchedule jobs machines schedule).improvement_suggestions
      = compactSuggestions schedule ++ imbalanceSuggestions schedule
          ++ lateSuggestions jobs schedule := by
    unfold validateSchedule
    dsimp only
    rw [hclean]
    rfl
  refine ⟨hsugg, ?_, ?_, ?_⟩
  · intro g hg hidle hlen
    rw [hsugg]
    refine List.mem_append_left _ (List.mem_append_left _ ?_)
    unfold compactSuggestions
    refine List.mem_filterMap.mpr ⟨g, hg, ?_⟩
    rw [if_pos ⟨hidle, hlen⟩]
  · intro s hs
    rw [hsugg]
    exact List.mem_append_left _ (List.mem_append_right _ hs)
  · intro job hjob d hd tl htl st hst hlate
    rw [hsugg]
    refine List.mem_append_right _ ?_
    unfold lateSuggestions
    refine List.mem_filterMap.mpr ⟨job, hjob, ?_⟩
    simp only [hd, htl, hst]
    rw [if_pos hlate]

/-- Witness for the amended C3 theorem: a violation-free schedule with a
late job produces the late-job report. -/
theorem validator_suggestions_witness :
    allViolations c3wJobs c3Machines c3Schedule = []
    ∧ Suggestion.late "J1" 1
        ∈ (validateSchedule c3wJobs c3Machines c3Schedule).improvement_suggestions :=
  ⟨by decide,
   (validator_suggestions_when_no_violations c3wJobs c3Machines c3Schedule
      (by decide)).2.2.2
     ⟨"J1", [⟨"t1", 3, ["M1"], 0⟩], 1, some 2, none⟩ (by decide)
     2 (by decide)
     ⟨"t1", 3, ["M1"], 0⟩ (by decide)
     ⟨"J1", "t1", "M1", 0, 3, 3⟩ (by decide) (by decide)⟩

/-! ## C9 lemmas and theorem -/

theorem getNode_append (s t : Store) (a : ℕ) (h : a < s.length) :
    getNode (s ++ t) a = getNode s a := by
  unfold getNode
  exact List.get?_append h

theorem getNode_big (s : Store) (a : ℕ) (h : s.length ≤ a) : getNode s a = none := by
  unfold getNode
  exact List.get?_eq_none.mpr h

theorem highFrom_length (s : Store) : HighFrom s.length s := by
  intro a ha c hc
  rw [getNode_big s a ha] at hc
  simp [childAddrs] at hc

theorem agreeBelow_refl (n : ℕ) (s : Store) : AgreeBelow n s s := fun _ _ => rfl

theorem agreeBelow_trans {n : ℕ} {s1 s2 s3 : Store} (h12 : AgreeBelow n s1 s2)
    (h23 : AgreeBelow n s2 s3) : AgreeBelow n s1 s3 :=
  fun a ha => (h23 a ha).trans (h12 a ha)

theorem agreeBelow_mono {n m : ℕ} {s s' : Store} (h : AgreeBelow n s s') (hmn : m ≤ n) :
    AgreeBelow m s s' := fun a ha => h a (lt_of_lt_of_le ha hmn)

theorem agreeBelow_append (n : ℕ) (s t : Store) (hn : n ≤ s.length) :
    AgreeBelow n s (s ++ t) := fun a ha => getNode_append s t a (lt_of_lt_of_le ha hn)

theorem highFrom_append (n : ℕ) (s : Store) (node : Node) (hs : HighFrom n s)
    (hnode : ∀ c ∈ childAddrs (some node), n ≤ c) : HighFrom n (s ++ [node]) := by
  intro a ha c hc
  rcases lt_trichotomy a s.length with h | h | h
  · rw [getNode_append s [node] a h] at hc
    exact hs a ha c hc
  · have hself : getNode (s ++ [node]) a = some node := by
      unfold getNode
      rw [h]
      exact List.get?_concat_length s node
    rw [hself] at hc
    exact hnode c hc
  · have hnone : getNode (s ++ [node]) a = none := by
      apply getNode_big
      simp only [List.length_append, List.length_cons, List.length_nil]
      omega
    rw [hnone] at hc
    simp [childAddrs] at hc

/-- Frame property of reading: a store agreeing below `n` with a closed
store reads the same document from any address below `n`. -/
theorem readPure_frame (fuel : ℕ) {n : ℕ} {s s' : Store} (hc : Closed n s)
    (hab : AgreeBelow n s s') : ∀ a, a < n → readPure fuel s' a = readPure fuel s a := by
  induction fuel with
  | zero => intro a _; rfl
  | succ fuel ih =>
    intro a ha
    unfold readPure
    rw [hab a ha]
    cases hg : getNode s a with
    | none => rfl
    | some node =>
      cases node with
      | obj fs =>
        have hch : ∀ kv ∈ fs, kv.2 < n := by
          intro kv hkv
          apply hc a ha
          rw [hg]
          exact List.mem_map_of_mem _ hkv
        simp only
        congr 1
        apply List.map_congr_left
        intro kv hkv
        rw [ih kv.2 (hch kv hkv)]
      | arr es =>
        have hch : ∀ e ∈ es, e < n := by
          intro e he
          apply hc a ha
          rw [hg]
          exact he
        simp only
        congr 1
        apply List.map_congr_left
        intro e he
        rw [ih e (hch e he)]
      | num v => rfl
      | str t => rfl

theorem copyNode_zero (s : Store) (a : ℕ) :
    copyNode 0 s a = (s ++ [.num 0], s.length) := by
  rw [copyNode]

theorem copyFields_nil (fuel : ℕ) (s : Store) : copyFields fuel s [] = (s, []) := by
  rw [copyFields]

theorem copyFields_cons (fuel : ℕ) (s : Store) (kv : String × ℕ)
    (rest : List (String × ℕ)) :
    copyFields fuel s (kv :: rest)
      = ((copyFields fuel (copyNode fuel s kv.2).1 rest).1,
         (kv.1, (copyNode fuel s kv.2).2)
           :: (copyFields fuel (copyNode fuel s kv.2).1 rest).2) := by
  rw [copyFields]

theorem copyElems_nil (fuel : ℕ) (s : Store) : copyElems fuel s [] = (s, []) := by
  rw [copyElems]

theorem copyElems_cons (fuel : ℕ) (s : Store) (e : ℕ) (rest : List ℕ) :
    copyElems fuel s (e :: rest)
      = ((copyElems fuel (copyNode fuel s e).1 rest).1,
         (copyNode fuel s e).2 :: (copyElems fuel (copyNode fuel s e).1 rest).2) := by
  rw [copyElems]

/-- The deep-copy allocates only fresh cells: the copy extends the
store, the returned root is fresh, and every cell at an address `≥ n`
(old or new) still refers only to addresses `≥ n`. -/
theorem copyNode_props : ∀ fuel : ℕ, ∀ (s : Store) (a n : ℕ), n ≤ s.length → HighFrom n s →
    (∃ t, (copyNode fuel s a).1 = s ++ t)
    ∧ s.length ≤ (copyNode fuel s a).2
    ∧ HighFrom n (copyNode fuel s a).1 := by
  have hfields : ∀ fuel : ℕ,
      (∀ (s : Store) (a n : ℕ), n ≤ s.length → HighFrom n s →
        (∃ t, (copyNode fuel s a).1 = s ++ t)
        ∧ s.length ≤ (copyNode fuel s a).2
        ∧ HighFrom n (copyNode fuel s a).1) →
      ∀ (l : List (String × ℕ)) (s : Store) (n : ℕ), n ≤ s.length → HighFrom n s →
        (∃ t, (copyFields fuel s l).1 = s ++ t)
        ∧ (∀ kv ∈ (copyFields fuel s l).2, s.length ≤ kv.2)
        ∧ HighFrom n (copyFields fuel s l).1 := by
    intro fuel hnode l
    induction l with
    | nil =>
      intro s n hn hh
      refine ⟨⟨[], by simp [copyFields]⟩, by simp [copyFields], ?_⟩
      simpa [copyFields] using hh
    | cons kv rest ih =>
      intro s n hn hh
      rw [copyFields_cons]
      obtain ⟨⟨t1, ht1⟩, hr1, hh1⟩ := hnode s kv.2 n hn hh
      have hlen1 : s.length ≤ (copyNode fuel s kv.2).1.length := by
        rw [ht1]
        simp
      obtain ⟨⟨t2, ht2⟩, hmem2, hh2⟩ := ih (copyNode fuel s kv.2).1 n (le_trans hn hlen1) hh1
      refine ⟨⟨t1 ++ t2, ?_⟩, ?_, ?_⟩
      · show (copyFields fuel (copyNode fuel s kv.2).1 rest).1 = s ++ (t1 ++ t2)
        rw [ht2, ht1, List.append_assoc]
      · intro kv' hkv'
        show s.length ≤ kv'.2
        rcases List.mem_cons.mp (show kv' ∈ (kv.1, (copyNode fuel s kv.2).2)
            :: (copyFields fuel (copyNode fuel s kv.2).1 rest).2 from hkv') with rfl | hm
        · exact hr1
        · exact le_trans hlen1 (hmem2 kv' hm)
      · exact hh2
  have helems : ∀ fuel : ℕ,
      (∀ (s : Store) (a n : ℕ), n ≤ s.length → HighFrom n s →
        (∃ t, (copyNode fuel s a).1 = s ++ t)
        ∧ s.length ≤ (copyNode fuel s a).2
        ∧ HighFrom n (copyNode fuel s a).1) →
      ∀ (l : List ℕ) (s : Store) (n : ℕ), n ≤ s.length → HighFrom n s →
        (∃ t, (copyElems fuel s l).1 = s ++ t)
        ∧ (∀ e ∈ (copyElems fuel s l).2, s.length ≤ e)
        ∧ HighFrom n (copyElems fuel s l).1 := by
    intro fuel hnode l
    induction l with
    | nil =>
      intro s n hn hh
      refine ⟨⟨[], by simp [copyElems]⟩, by simp [copyElems], ?_⟩
      simpa [copyElems] using hh
    | cons e rest ih =>
      intro s n hn hh
      rw [copyElems_cons]
      obtain ⟨⟨t1, ht1⟩, hr1, hh1⟩ := hnode s e n hn hh
      have hlen1 : s.length ≤ (copyNode fuel s e).1.length := by
        rw [ht1]
        simp
      obtain ⟨⟨t2, ht2⟩, hmem2, hh2⟩ := ih (copyNode fuel s e).1 n (le_trans hn hlen1) hh1
      refine ⟨⟨t1 ++ t2, ?_⟩, ?_, ?_⟩
      · show (copyElems fuel (copyNode fuel s e).1 rest).1 = s ++ (t1 ++ t2)
        rw [ht2, ht1, List.append_assoc]
      · intro e' he'
        rcases List.mem_cons.mp (show e' ∈ (copyNode fuel s e).2
            :: (copyElems fuel (copyNode fuel s e).1 rest).2 from he') with rfl | hm
        · exact hr1
        · exact le_trans hlen1 (hmem2 e' hm)
      · exact hh2
  intro fuel
  induction fuel with
  | zero =>
    intro s a n hn hh
    rw [copyNode_zero]
    refine ⟨⟨[.num 0], rfl⟩, le_refl _, ?_⟩
    exact highFrom_append n s (.num 0) hh (by simp [childAddrs])
  | succ fuel ih =>
    intro s a n hn hh
    cases hg : getNode s a with
    | none =>
      have he : copyNode (fuel + 1) s a = (s ++ [.num 0], s.length) := by
        rw [copyNode, hg]
      rw [he]
      refine ⟨⟨[.num 0], rfl⟩, le_refl _, ?_⟩
      exact highFrom_append n s (.num 0) hh (by simp [childAddrs])
    | some node =>
      cases node with
      | obj fs =>
        have he : copyNode (fuel + 1) s a
            = ((copyFields fuel s fs).1 ++ [.obj (copyFields fuel s fs).2],
               (copyFields fuel s fs).1.length) := by
          rw [copyNode, hg]
        rw [he]
        obtain ⟨⟨t, ht⟩, hmem, hhf⟩ := hfields fuel ih fs s n hn hh
        have hlen : s.length ≤ (copyFields fuel s fs).1.length := by
          rw [ht]
          simp
        refine ⟨⟨t ++ [.obj (copyFields fuel s fs).2], by rw [ht, List.append_assoc]⟩,
          hlen, ?_⟩
        refine highFrom_append n (copyFields fuel s fs).1 _ hhf ?_
        intro c hc
        simp only [childAddrs, List.mem_map] at hc
        obtain ⟨kv, hkv, rfl⟩ := hc
        exact le_trans hn (hmem kv hkv)
      | arr es =>
        have he : copyNode (fuel + 1) s a
            = ((copyElems fuel s es).1 ++ [.arr (copyElems fuel s es).2],
               (copyElems fuel s es).1.length) := by
          rw [copyNode, hg]
        rw [he]
        obtain ⟨⟨t, ht⟩, hmem, hhf⟩ := helems fuel ih es s n hn hh
        have hlen : s.length ≤ (copyElems fuel s es).1.length := by
          rw [ht]
          simp
        refine ⟨⟨t ++ [.arr (copyElems fuel s es).2], by rw [ht, List.append_assoc]⟩,
          hlen, ?_⟩
        refine highFrom_append n (copyElems fuel s es).1 _ hhf ?_
        intro c hc
        simp only [childAddrs] at hc
        exact le_trans hn (hmem c hc)
      | num v =>
        have he : copyNode (fuel + 1) s a = (s ++ [.num v], s.length) := by
          rw [copyNode, hg]
        rw [he]
        refine ⟨⟨[.num v], rfl⟩, le_refl _, ?_⟩
        exact highFrom_append n s (.num v) hh (by simp [childAddrs])
      | str t =>
        have he : copyNode (fuel + 1) s a = (s ++ [.str t], s.length) := by
          rw [copyNode, hg]
        rw [he]
        refine ⟨⟨[.str t], rfl⟩, le_refl _, ?_⟩
        exact highFrom_append n s (.str t) hh (by simp [childAddrs])


theorem selectItem_mem : ∀ (items : List ℕ) (s : Store) (key : String) (cur : ℕ),
    selectItem s items key cur = cur ∨ selectItem s items key cur ∈ items := by
  intro items
  induction items with
  | nil => intro s key cur; left; rfl
  | cons it rest ih =>
    intro s key cur
    have hstep : selectItem s (it :: rest) key cur
        = selectItem s rest key (if matchesId s it key then it else cur) := rfl
    rw [hstep]
    rcases ih s key (if matchesId s it key then it else cur) with h | h
    · rw [h]
      by_cases hm : matchesId s it key
      · right
        rw [if_pos hm]
        exact List.mem_cons_self it rest
      · left
        rw [if_neg hm]
    · right
      exact List.mem_cons_of_mem _ h

theorem objField_child (fs : List (String × ℕ)) (k : String) (b : ℕ)
    (h : objField fs k = some b) : b ∈ childAddrs (some (.obj fs)) := by
  unfold objField at h
  rw [Option.map_eq_some'] at h
  obtain ⟨kv, hfind, rfl⟩ := h
  simp only [childAddrs]
  exact List.mem_map_of_mem _ (List.mem_of_find?_eq_some hfind)

/-- Navigation from a high address stays high in a store whose high
region is upward closed. -/
theorem navSeg_high {n : ℕ} {s : Store} (hh : HighFrom n s) (a : ℕ) (ha : n ≤ a)
    (seg : Seg) (b : ℕ) (hb : navSeg s a seg = some b) : n ≤ b := by
  cases seg with
  | field name =>
    cases hg : getNode s a with
    | none => simp [navSeg, hg] at hb
    | some node =>
      cases node with
      | obj fs =>
        simp only [navSeg, hg] at hb
        have hmem : b ∈ childAddrs (some (Node.obj fs)) := objField_child fs name b hb
        rw [← hg] at hmem
        exact hh a ha b hmem
      | arr es => simp [navSeg, hg] at hb
      | num v => simp [navSeg, hg] at hb
      | str t => simp [navSeg, hg] at hb
  | fieldId name key =>
    cases hg : getNode s a with
    | none => simp [navSeg, hg] at hb
    | some node =>
      cases node with
      | obj fs =>
        simp only [navSeg, hg] at hb
        cases hof : objField fs name with
        | none => simp [hof] at hb
        | some fa =>
          simp only [hof] at hb
          have hfa : n ≤ fa := by
            have hmem : fa ∈ childAddrs (some (Node.obj fs)) := objField_child fs name fa hof
            rw [← hg] at hmem
            exact hh a ha fa hmem
          cases hg2 : getNode s fa with
          | none => simp [hg2] at hb
          | some node2 =>
            simp only [hg2] at hb
            cases node2 with
            | obj fs2 =>
              have hfb : fa = b := Option.some.inj hb
              exact hfb ▸ hfa
            | arr items =>
              have hb' : selectItem s items key fa = b := Option.some.inj hb
              rcases selectItem_mem items s key fa with h | h
              · rw [← hb', h]; exact hfa
              · rw [← hb']
                have hmem : selectItem s items key fa ∈ childAddrs (getNode s fa) := by
                  rw [hg2]
                  exact h
                exact hh fa hfa _ hmem
            | num v =>
              have hfb : fa = b := Option.some.inj hb
              exact hfb ▸ hfa
            | str t =>
              have hfb : fa = b := Option.some.inj hb
              exact hfb ▸ hfa
      | arr es => simp [navSeg, hg] at hb
      | num v => simp [navSeg, hg] at hb
      | str t => simp [navSeg, hg] at hb

theorem navigate_high {n : ℕ} {s : Store} (hh : HighFrom n s) :
    ∀ (segs : List Seg) (a : ℕ), n ≤ a → ∀ b, navigate s a segs = some b → n ≤ b := by
  intro segs
  induction segs with
  | nil =>
    intro a ha b hb
    have : a = b := Option.some.inj hb
    rw [← this]
    exact ha
  | cons seg rest ih =>
    intro a ha b hb
    unfold navigate at hb
    cases hseg : navSeg s a seg with
    | none => rw [hseg] at hb; exact Option.noConfusion hb
    | some c =>
      rw [hseg] at hb
      exact ih c (navSeg_high hh a ha seg c hseg) b hb

theorem updateField_child : ∀ (fs : List (String × ℕ)) (k : String) (a : ℕ),
    ∀ kv ∈ updateField fs k a, kv.2 = a ∨ kv.2 ∈ fs.map (·.2) := by
  intro fs
  induction fs with
  | nil =>
    intro k a kv hkv
    rcases List.mem_singleton.mp hkv with rfl
    left; rfl
  | cons kv0 rest ih =>
    intro k a kv hkv
    unfold updateField at hkv
    by_cases h0 : kv0.1 == k
    · rw [if_pos h0] at hkv
      rcases List.mem_cons.mp hkv with rfl | hm
      · left; rfl
      · right
        exact List.mem_map_of_mem _ (List.mem_cons_of_mem _ hm)
    · rw [if_neg h0] at hkv
      rcases List.mem_cons.mp hkv with rfl | hm
      · right
        exact List.mem_map_of_mem _ (List.mem_cons_self _ _)
      · rcases ih k a kv hm with h | h
        · left; exact h
        · right
          simp only [List.map_cons, List.mem_cons] at h ⊢
          exact Or.inr h

theorem getNode_set_ne (s : Store) (p a : ℕ) (x : Node) (h : a ≠ p) :
    getNode (s.set p x) a = getNode s a := by
  unfold getNode
  simp only [List.get?_eq_getElem?]
  rw [List.getElem?_set_ne (fun he => h he.symm)]

/-- `_set_path` touches only cells at addresses `≥ M` when the root is
`≥ M`: it agrees below `M` with the input, keeps the high region upward
closed, and never shrinks the store. -/
theorem setPath_props {M : ℕ} {s : Store} (hh : HighFrom M s) (hlen : M ≤ s.length)
    (root : ℕ) (hroot : M ≤ root) (segs : List Seg) (term : String) (v : ℚ) :
    AgreeBelow M s (setPath s root segs term v)
    ∧ HighFrom M (setPath s root segs term v)
    ∧ s.length ≤ (setPath s root segs term v).length := by
  cases hnav : navigate s root segs with
  | none =>
    have he : setPath s root segs term v = s := by
      unfold setPath
      rw [hnav]
    rw [he]
    exact ⟨agreeBelow_refl M s, hh, le_refl _⟩
  | some p =>
    have hp : M ≤ p := navigate_high hh segs root hroot p hnav
    cases hg : getNode s p with
    | none =>
      have he : setPath s root segs term v = s := by
        unfold setPath
        simp only [hnav, hg]
      rw [he]
      exact ⟨agreeBelow_refl M s, hh, le_refl _⟩
    | some node =>
      cases node with
      | obj fs =>
        have he : setPath s root segs term v
            = (s.set p (.obj (updateField fs term s.length))) ++ [.num v] := by
          unfold setPath
          simp only [hnav, hg]
        rw [he]
        have hplen : p < s.length := by
          by_contra hge
          rw [getNode_big s p (le_of_not_lt hge)] at hg
          exact Option.noConfusion hg
        refine ⟨?_, ?_, ?_⟩
        · intro a ha
          have hane : a ≠ p := by omega
          rw [getNode_append _ _ a (by simp only [List.length_set]; omega)]
          exact getNode_set_ne s p a _ hane
        · intro a ha c hc
          rcases lt_trichotomy a (s.set p (Node.obj (updateField fs term s.length))).length
            with hlt | heq | hgt
          · rw [getNode_append _ _ a hlt] at hc
            by_cases hap : a = p
            · subst hap
              have hgs : getNode (s.set a (Node.obj (updateField fs term s.length))) a
                  = some (Node.obj (updateField fs term s.length)) := by
                unfold getNode
                simp only [List.get?_eq_getElem?]
                rw [List.getElem?_set_self]
                simpa using hplen
              rw [hgs] at hc
              simp only [childAddrs, List.mem_map] at hc
              obtain ⟨kv, hkv, rfl⟩ := hc
              rcases updateField_child fs term s.length kv hkv with h | h
              · rw [h]; exact hlen
              · have : kv.2 ∈ childAddrs (getNode s a) := by
                  rw [hg]
                  simpa [childAddrs] using h
                exact hh a ha kv.2 this
            · rw [getNode_set_ne s p a _ hap] at hc
              exact hh a ha c hc
          · have hself : getNode ((s.set p (Node.obj (updateField fs term s.length)))
                ++ [Node.num v]) a = some (Node.num v) := by
              unfold getNode
              rw [heq]
              simp only [List.get?_eq_getElem?]
              rw [List.getElem?_concat_length]
            rw [hself] at hc
            simp [childAddrs] at hc
          · have hnone : getNode ((s.set p (Node.obj (updateField fs term s.length)))
                ++ [Node.num v]) a = none := by
              apply getNode_big
              simp only [List.length_append, List.length_set, List.length_cons,
                List.length_nil] at hgt ⊢
              omega
            rw [hnone] at hc
            simp [childAddrs] at hc
        · simp only [List.length_append, List.length_set, List.length_cons, List.length_nil]
          omega
      | arr es =>
        have he : setPath s root segs term v = s := by
          unfold setPath
          simp only [hnav, hg]
        rw [he]
        exact ⟨agreeBelow_refl M s, hh, le_refl _⟩
      | num w =>
        have he : setPath s root segs term v = s := by
          unfold setPath
          simp only [hnav, hg]
        rw [he]
        exact ⟨agreeBelow_refl M s, hh, le_refl _⟩
      | str t =>
        have he : setPath s root segs term v = s := by
          unfold setPath
          simp only [hnav, hg]
        rw [he]
        exact ⟨agreeBelow_refl M s, hh, le_refl _⟩

/-- The per-scenario write loop touches only the high region. -/
theorem setPath_fold_props (M root : ℕ) (hroot : M ≤ root) :
    ∀ (pvs : List ((List Seg × String) × ℚ)) (st : Store),
      HighFrom M st → M ≤ st.length →
      AgreeBelow M st (pvs.foldl (fun st2 pv => setPath st2 root pv.1.1 pv.1.2 pv.2) st)
      ∧ HighFrom M (pvs.foldl (fun st2 pv => setPath st2 root pv.1.1 pv.1.2 pv.2) st)
      ∧ M ≤ (pvs.foldl (fun st2 pv => setPath st2 root pv.1.1 pv.1.2 pv.2) st).length := by
  intro pvs
  induction pvs with
  | nil => intro st hh hlen; exact ⟨agreeBelow_refl M st, hh, hlen⟩
  | cons pv rest ih =>
    intro st hh hlen
    obtain ⟨ha1, hh1, hl1⟩ := setPath_props hh hlen root hroot pv.1.1 pv.1.2 pv.2
    obtain ⟨ha2, hh2, hl2⟩ :=
      ih (setPath st root pv.1.1 pv.1.2 pv.2) hh1 (le_trans hlen hl1)
    exact ⟨agreeBelow_trans ha1 ha2, hh2, hl2⟩

/-- The scenario loop leaves every cell below the initial store length
unchanged and only grows the store. -/
theorem scenarioLoop_agree (fuel base N : ℕ) (s0 : Store) :
    ∀ (scens : List (List ((List Seg × String) × ℚ))) (st : Store),
      AgreeBelow N s0 st → N ≤ st.length →
      AgreeBelow N s0 (scenarioLoop fuel st base scens)
      ∧ N ≤ (scenarioLoop fuel st base scens).length := by
  intro scens
  induction scens with
  | nil => intro st h1 h2; exact ⟨h1, h2⟩
  | cons scen rest ih =>
    intro st h1 h2
    have hstep : scenarioLoop fuel st base (scen :: rest)
        = scenarioLoop fuel
            (scen.foldl
              (fun st2 pv => setPath st2 (copyNode fuel st base).2 pv.1.1 pv.1.2 pv.2)
              (copyNode fuel st base).1) base rest := rfl
    rw [hstep]
    obtain ⟨⟨t, ht⟩, hr, hhf⟩ :=
      copyNode_props fuel st base st.length (le_refl _) (highFrom_length st)
    have hclen : st.length ≤ (copyNode fuel st base).1.length := by
      rw [ht]; simp
    obtain ⟨ha, hh', hl⟩ := setPath_fold_props st.length (copyNode fuel st base).2 hr
      scen (copyNode fuel st base).1 hhf hclen
    have hagree : AgreeBelow N s0
        (scen.foldl
          (fun st2 pv => setPath st2 (copyNode fuel st base).2 pv.1.1 pv.1.2 pv.2)
          (copyNode fuel st base).1) := by
      refine agreeBelow_trans h1 (agreeBelow_mono ?_ h2)
      refine agreeBelow_trans ?_ ha
      rw [ht]
      exact agreeBelow_append st.length st t (le_refl _)
    exact ih _ hagree (le_trans h2 hl)

/-- **C9.** Every Layer-2 scenario loop (robust, stochastic,
sensitivity) deep-copies the base document before applying `_set_path`
writes, so the caller's document — rooted at any address of the
original self-contained store — reads back unchanged after the loop. -/
theorem scenario_loop_frame (fuel rfuel : ℕ) (s : Store) (base : ℕ)
    (scens : List (List ((List Seg × String) × ℚ)))
    (hbase : base < s.length) (hclosed : Closed s.length s) :
    readPure rfuel (scenarioLoop fuel s base scens) base = readPure rfuel s base := by
  obtain ⟨hagree, _⟩ :=
    scenarioLoop_agree fuel base s.length s scens s (agreeBelow_refl _ s) (le_refl _)
  exact readPure_frame rfuel hclosed hagree base hbase

theorem scenario_loop_frame_witness :
    (0 < ([Node.obj [("x", 1)], Node.num 5] : Store).length
      ∧ Closed ([Node.obj [("x", 1)], Node.num 5] : Store).length
          [Node.obj [("x", 1)], Node.num 5])
    ∧ readPure 3
        (scenarioLoop 3 [Node.obj [("x", 1)], Node.num 5] 0 [[((([] : List Seg), "x"), 3)]])
        0
      = readPure 3 [Node.obj [("x", 1)], Node.num 5] 0 :=
  ⟨⟨by decide, by decide⟩,
    scenario_loop_frame 3 3 [Node.obj [("x", 1)], Node.num 5] 0
      [[((([] : List Seg), "x"), 3)]] (by decide) (by decide)⟩

/-! ## C7 theorem -/

/-- **C7.** Two stochastic runs with identical requests — the same
parameter list, the same nominal values, the same `num_scenarios`, and
the same seed (hence the same initial rng state) — generate identical
per-scenario parameter values and, the dispatched Layer-1 solve being a
deterministic function of its input (as are the rng transformer and the
path mutation), report identical `expected_value`. -/
theorem stochastic_reproducibility {σ δ : Type}
    (draw : StochParam → ℚ → σ → ℚ × σ)
    (apply : δ → List (String × PyNum) → δ) (solve : δ → String × ℚ) (doc : δ)
    (params1 params2 : List StochParam) (noms1 noms2 : String → PyNum)
    (n1 n2 : ℕ) (s1 s2 : σ)
    (hp : params1 = params2) (hn : noms1 = noms2) (hc : n1 = n2) (hs : s1 = s2) :
    genScenarios draw params1 noms1 n1 s1 = genScenarios draw params2 noms2 n2 s2
    ∧ stochExpectedValue draw apply solve doc params1 noms1 n1 s1
        = stochExpectedValue draw apply solve doc params2 noms2 n2 s2 := by
  subst hp
  subst hn
  subst hc
  subst hs
  exact ⟨rfl, rfl⟩

/-- Witness for the C7 theorem at a concrete deterministic sampler,
solver and request. -/
theorem stochastic_reproducibility_witness :
    @genScenarios ℕ (fun _ nom st => (nom + st, st + 1)) [⟨"p"⟩]
        (fun _ => PyNum.int 3) 2 42
      = @genScenarios ℕ (fun _ nom st => (nom + st, st + 1)) [⟨"p"⟩]
        (fun _ => PyNum.int 3) 2 42
    ∧ @stochExpectedValue ℕ ℚ (fun _ nom st => (nom + st, st + 1))
        (fun d _ => d) (fun d => ("optimal", d)) 5 [⟨"p"⟩] (fun _ => PyNum.int 3) 2 42
      = @stochExpectedValue ℕ ℚ (fun _ nom st => (nom + st, st + 1))
        (fun d _ => d) (fun d => ("optimal", d)) 5 [⟨"p"⟩] (fun _ => PyNum.int 3) 2 42 :=
  @stochastic_reproducibility ℕ ℚ (fun _ nom st => (nom + st, st + 1)) (fun d _ => d)
    (fun d => ("optimal", d)) 5 [⟨"p"⟩] [⟨"p"⟩] (fun _ => PyNum.int 3)
    (fun _ => PyNum.int 3) 2 2 42 42 rfl rfl rfl rfl

/-! ## C6 lemmas and theorem -/

theorem dominance_fold_no_strict (b : List (String × ℚ)) (minimizeKeys : List String)
    (a : List (String × ℚ)) (hself : ∀ kv ∈ a, objLookup b kv.1 = kv.2) :
    ∀ c : Bool, (a.foldl (dominanceStep b minimizeKeys) (c, false)).2 = false := by
  induction a with
  | nil => intro c; rfl
  | cons hd tl ih =>
    intro c
    have hhd : objLookup b hd.1 = hd.2 := hself hd (List.mem_cons_self hd tl)
    have htl : ∀ kv ∈ tl, objLookup b kv.1 = kv.2 :=
      fun kv hkv => hself kv (List.mem_cons_of_mem hd hkv)
    rw [List.foldl_cons]
    have hstep : dominanceStep b minimizeKeys (c, false) hd
        = ((dominanceStep b minimizeKeys (c, false) hd).1, false) := by
      unfold dominanceStep
      rw [hhd]
      by_cases hmk : minimizeKeys.contains hd.1
      · simp [hmk]
      · simp [hmk]
    rw [hstep]
    exact ih htl _

theorem isDominated_self (a : List (String × ℚ)) (hnd : (a.map Prod.fst).Nodup) :
    isDominated a a minimizeKeys = false := by
  have hself : ∀ kv ∈ a, objLookup a kv.1 = kv.2 := by
    induction a with
    | nil => simp
    | cons hd tl ih =>
      intro kv hkv
      simp only [List.map_cons, List.nodup_cons] at hnd
      rcases List.mem_cons.mp hkv with rfl | htl
      · unfold objLookup
        rw [List.find?_cons_of_pos _ (by simp)]
        rfl
      · have hne : ¬ (hd.1 == kv.1) = true := by
          simp only [beq_iff_eq]
          intro heq
          exact hnd.1 (heq ▸ List.mem_map_of_mem Prod.fst htl)
        unfold objLookup
        have hstep : List.find? (fun kv0 => kv0.1 == kv.1) (hd :: tl)
            = List.find? (fun kv0 => kv0.1 == kv.1) tl :=
          List.find?_cons_of_neg _ (by simpa using hne)
        rw [hstep]
        simpa [objLookup] using ih hnd.2 kv htl
  unfold isDominated
  dsimp only
  rw [dominance_fold_no_strict a minimizeKeys a hself true]
  simp

/-- **C6.** Every point in the frontier returned by `optimize_pareto` is
feasible and is not dominated — in the `_is_dominated` sense, with
`minimize_*` objectives compared downward and the others upward — by any
feasible generated point. -/
theorem pareto_frontier_feasible_not_dominated
    (pts : List ParetoPoint) (minimizeKeys : List String)
    (hkeys : ∀ r ∈ pts, (r.objectives.map Prod.fst).Nodup) :
    ∀ p ∈ engineFrontier pts minimizeKeys,
      p.feasible = true
      ∧ ∀ q ∈ pts, q.feasible = true
          → isDominated p.objectives q.objectives minimizeKeys = false := by
  intro p hp
  unfold engineFrontier filterParetoFrontier at hp
  set feas := pts.filter (·.feasible) with hfeas
  obtain ⟨ip, hipfil, hip2⟩ := List.mem_map.mp hp
  obtain ⟨hipenum, hippred⟩ := List.mem_filter.mp hipfil
  simp only [Bool.and_eq_true, Bool.not_eq_true'] at hippred
  obtain ⟨hpfeas, hnoany⟩ := hippred
  rw [List.any_eq_false] at hnoany
  constructor
  · rw [← hip2]
    exact hpfeas
  · intro q hq hqfeas
    have hqmem : q ∈ feas := by
      rw [hfeas]
      exact List.mem_filter.mpr ⟨hq, by rw [hqfeas]⟩
    obtain ⟨⟨j, hj⟩, hget⟩ := List.mem_iff_get.mp hqmem
    have hqenum : (j, q) ∈ feas.enum := by
      rw [List.mem_enum_iff_get?]
      rw [List.get?_eq_get hj, hget]
    by_cases hji : j = ip.1
    · have hpenum := hipenum
      rw [List.mem_enum_iff_get?] at hpenum hqenum
      rw [← hji] at hpenum
      have : some q = some ip.2 := by rw [← hqenum, hpenum]
      have hqp : q = ip.2 := by injection this
      rw [← hip2, hqp]
      exact isDominated_self ip.2.objectives
        (hkeys ip.2 (List.mem_of_mem_filter (by
          rw [hqp] at hqmem
          rw [hfeas] at hqmem
          exact hqmem)))
    · have := hnoany (j, q) hqenum
      simp only [Bool.and_eq_true, bne_iff_ne, ne_eq, decide_eq_true_eq] at this
      rw [← hip2]
      by_contra hdom
      apply this
      refine ⟨⟨hji, hqfeas⟩, ?_⟩
      simpa using hdom

/-! ## C2 counterexample and amended theorem -/

/-- **C2, counterexample.** With no distance matrix supplied and a third
location lacking GPS, the pair (A, B) — both endpoints with GPS — gets
distance and travel time 0 rather than the Haversine value (the abstract
`hav` here returns 7): the per-pair GPS fallback of the claim does not
apply when the distance matrix is absent and any location lacks
coordinates. -/
theorem distance_matrix_counterexample :
    buildMatrixEntry (fun _ _ _ _ => 7) c2Locs none 0 1 = (0, 0)
    ∧ claimedMatrixEntry (fun _ _ _ _ => 7) c2Locs none 0 1 = (7, 7)
    ∧ buildMatrixEntry (fun _ _ _ _ => 7) c2Locs none 0 1
        ≠ claimedMatrixEntry (fun _ _ _ _ => 7) c2Locs none 0 1 :=
  ⟨by decide, by decide, by decide⟩

/-- **C2, amended.** For `i ≠ j`: when a nonempty distance matrix is
supplied, each cell follows the claimed per-pair rule (explicit entry,
then pairwise-GPS Haversine, then zero); when the distance matrix is
absent or empty, Haversine is used only if **every** location has GPS
coordinates, and otherwise the cell is zero even if both endpoints have
GPS. -/
theorem distance_matrix_characterization (hav : ℚ → ℚ → ℚ → ℚ → ℤ)
    (locs : List RLocation) (dmatrix : Option (List RDistanceEntry))
    (i j : ℕ) (hij : i ≠ j) :
    ((dmatrix.getD []).isEmpty = false →
        buildMatrixEntry hav locs dmatrix i j = claimedMatrixEntry hav locs dmatrix i j)
    ∧ ((dmatrix.getD []).isEmpty = true →
        ((∀ l ∈ locs, l.latitude.isSome = true ∧ l.longitude.isSome = true) →
          ∀ li lj, locs.get? i = some li → locs.get? j = some lj →
            ∃ d, pairHaversine hav li lj = some d
              ∧ buildMatrixEntry hav locs dmatrix i j = (d, d))
         ∧ ((∃ l ∈ locs, l.latitude.isSome = false ∨ l.longitude.isSome = false) →
            buildMatrixEntry hav locs dmatrix i j = (0, 0))) := by
  constructor
  · intro hne
    unfold buildMatrixEntry claimedMatrixEntry
    rw [if_neg hij, if_neg hij]
    cases hgi : locs.get? i with
    | none => rfl
    | some li =>
      cases hgj : locs.get? j with
      | none => rfl
      | some lj =>
        simp only [hne]
        rfl
  · intro hempty
    constructor
    · intro hall li lj hgi hgj
      have hmi : li ∈ locs := List.get?_mem hgi
      have hmj : lj ∈ locs := List.get?_mem hgj
      obtain ⟨h1, h2⟩ := hall li hmi
      obtain ⟨h3, h4⟩ := hall lj hmj
      obtain ⟨la1, hla1⟩ := Option.isSome_iff_exists.mp h1
      obtain ⟨lo1, hlo1⟩ := Option.isSome_iff_exists.mp h2
      obtain ⟨la2, hla2⟩ := Option.isSome_iff_exists.mp h3
      obtain ⟨lo2, hlo2⟩ := Option.isSome_iff_exists.mp h4
      have hph : pairHaversine hav li lj = some (hav la1 lo1 la2 lo2) := by
        unfold pairHaversine
        rw [hla1, hlo1, hla2, hlo2]
      refine ⟨hav la1 lo1 la2 lo2, hph, ?_⟩
      have hallb : locs.all (fun l => l.latitude.isSome && l.longitude.isSome) = true := by
        rw [List.all_eq_true]
        intro l hl
        obtain ⟨ha, hb⟩ := hall l hl
        rw [ha, hb]
        rfl
      unfold buildMatrixEntry
      rw [if_neg hij]
      simp only [hgi, hgj, hempty, hallb, hph]
      rfl
    · intro hbadex
      obtain ⟨l, hl, hbad⟩ := hbadex
      have hallb : locs.all (fun l => l.latitude.isSome && l.longitude.isSome) = false := by
        rw [List.all_eq_false]
        refine ⟨l, hl, ?_⟩
        rcases hbad with hb | hb <;> simp [hb]
      unfold buildMatrixEntry
      rw [if_neg hij]
      cases hgi : locs.get? i with
      | none => rfl
      | some li =>
        cases hgj : locs.get? j with
        | none => rfl
        | some lj =>
          simp only [hempty, hallb]
          rfl

/-- Witness for the amended C2 theorem: the zero-cell case at the
concrete counterexample locations. -/
theorem distance_matrix_characterization_witness :
    (0 : ℕ) ≠ 1
    ∧ ((none : Option (List RDistanceEntry)).getD []).isEmpty = true
    ∧ (∃ l ∈ c2Locs, l.latitude.isSome = false ∨ l.longitude.isSome = false)
    ∧ buildMatrixEntry (fun _ _ _ _ => 7) c2Locs none 0 1 = (0, 0) :=
  ⟨by decide, by decide, ⟨⟨"C", none, none⟩, by decide, by decide⟩,
   ((distance_matrix_characterization (fun _ _ _ _ => 7) c2Locs none 0 1
      (by decide)).2 (by decide)).2 ⟨⟨"C", none, none⟩, by decide, by decide⟩⟩

/-- Witness for the C6 theorem on two concrete generated points. -/
theorem pareto_frontier_witness :
    (∀ r ∈ paretoWitnessPoints, (r.objectives.map Prod.fst).Nodup)
    ∧ paretoWitnessPoints.headI ∈ engineFrontier paretoWitnessPoints ["minimize_makespan"]
    ∧ (paretoWitnessPoints.headI.feasible = true
       ∧ ∀ q ∈ paretoWitnessPoints, q.feasible = true
          → isDominated paretoWitnessPoints.headI.objectives q.objectives
              ["minimize_makespan"] = false) :=
  ⟨by decide, by decide,
   pareto_frontier_feasible_not_dominated paretoWitnessPoints ["minimize_makespan"]
     (by decide) paretoWitnessPoints.headI (by decide)⟩

end OptimEngine
